import Mathlib

/-!
A shallow embedding of `bin2go.go`, and the properties proved of it.

The program reads binary files and writes, for each of them, a Go source file
declaring a byte array that holds the file's bytes.

Modelling conventions

* A Go `string` is modelled by the sequence of runes obtained by ranging over
  it (`List Char`); all text the program emits is built from such sequences.
* A `byte` is a `Fin 256`.
* `os.Exit` and a run-time panic end the run; functions that can end the run
  return an `Except`, the error carrying the state reached at that moment.
* The Go standard library is not part of the repository.  The Unicode tables
  (`unicode.IsLetter`, `unicode.IsNumber`, `unicode.ToUpper`) and
  `filepath.Dir` are parameters (`Lib`); `filepath.Base`,
  `strings.FieldsFunc` and the `%.2x` verb are modelled after their
  implementation for Unix paths.
* The outcomes of system calls are given by an environment (`Sys`).
-/

namespace Bin2go

/-! ## Basic types -/

/-- A Go byte. -/
abbrev Byte := Fin 256

/-- A Go string, as the sequence of its runes. -/
abbrev Str := List Char

/-- Exit error codes (the `iota` constant block). -/
def NO_ERROR : Nat := 0

/-- Exit code of a usage violation. -/
def WRONG_ARGS : Nat := 1

/-- Exit code of a failure to read an input. -/
def INPUT_FAIL : Nat := 2

/-- Exit code of a failure to write an output. -/
def OUTPUT_FAIL : Nat := 3

/-- The two ways a run ends early: `os.Exit code`, or a run-time panic. -/
inductive Abort where
  | exit (code : Nat)
  | panic
  deriving DecidableEq, Repr

instance {ε α : Type} [DecidableEq ε] [DecidableEq α] : DecidableEq (Except ε α)
  | .ok a, .ok b => if h : a = b then isTrue (by rw [h]) else isFalse (by intro h1; cases h1; exact h rfl)
  | .error a, .error b => if h : a = b then isTrue (by rw [h]) else isFalse (by intro h1; cases h1; exact h rfl)
  | .ok _, .error _ => isFalse (by intro h; cases h)
  | .error _, .ok _ => isFalse (by intro h; cases h)

/-- The global flag variables `name`, `out` and `pkg` (the values the pointers
point to; the empty string is the default of each flag). -/
structure Flags where
  name : Str
  out : Str
  pkg : Str
  deriving DecidableEq, Repr

/-- The functions of the Go standard library that are taken as parameters. -/
structure Lib where
  isLetter : Char → Bool
  isNumber : Char → Bool
  toUpper : Char → Char
  dir : Str → Str

/-- An `io.Writer`: a write takes the writer from one state to the next and
reports whether it returned an error (`true` is a non-nil error). -/
structure Writer (σ : Type) where
  write : σ → Str → σ × Bool

/-! ## Library functions modelled after their implementation -/

/-- The verb `%.2x` applied to a non-negative integer: its lower-case
hexadecimal digits, padded with zeros on the left to at least two digits. -/
def fmtHex2 (b : Nat) : Str :=
  let ds := Nat.toDigits 16 b
  List.replicate (2 - ds.length) '0' ++ ds

/-- The scanning loop of `strings.FieldsFunc`: `cur` is the field being read
(`none` when `start < 0`), stored in reverse; `acc` are the recorded fields,
in reverse. -/
def fieldsLoop (f : Char → Bool) : Str → Option Str → List Str → List Str
  | [], none, acc => acc.reverse
  | [], some w, acc => (w.reverse :: acc).reverse
  | c :: cs, none, acc =>
      if f c then fieldsLoop f cs none acc else fieldsLoop f cs (some [c]) acc
  | c :: cs, some w, acc =>
      if f c then fieldsLoop f cs none (w.reverse :: acc)
      else fieldsLoop f cs (some (c :: w)) acc

/-- The function `strings.FieldsFunc s f`: the fields of `s` between the runes
that satisfy `f`. -/
def fieldsFunc (s : Str) (f : Char → Bool) : List Str :=
  fieldsLoop f s none []

/-- Strip trailing slashes (the first loop of `filepath.Base`). -/
def stripTrailingSlashes (p : Str) : Str :=
  (p.reverse.dropWhile (· == '/')).reverse

/-- The last element of a path without trailing slash: what follows the last
slash, or the whole path when it has none. -/
def lastElement (p : Str) : Str :=
  (p.reverse.takeWhile (· != '/')).reverse

/-- The function `filepath.Base` for Unix paths. -/
def base (path : Str) : Str :=
  if path = [] then ".".toList
  else
    let p := lastElement (stripTrailingSlashes path)
    if p = [] then "/".toList else p

/-- The function `filepath.Dir` on a clean path, as `filepath.Abs` returns
them: the path up to its last slash. -/
def cleanDir (p : Str) : Str :=
  let d := stripTrailingSlashes ((p.reverse.dropWhile (· != '/')).reverse)
  if d = [] then (if p.head? = some '/' then "/".toList else ".".toList) else d

/-! ## The program -/

/-- The function `checkOutputFailure`: exits with `OUTPUT_FAIL` on an error,
and returns otherwise. -/
def checkOutputFailure {σ : Type} (r : σ × Bool) : Except (Abort × σ) σ :=
  if r.2 then .error (Abort.exit OUTPUT_FAIL, r.1) else .ok r.1

/-- A call `fmt.Fprint(out, text)` followed by `checkOutputFailure(err)`. -/
def fprint {σ : Type} (w : Writer σ) (s : σ) (text : Str) : Except (Abort × σ) σ :=
  checkOutputFailure (w.write s text)

/-- The separator predicate handed to `strings.FieldsFunc`. -/
def isSeparator (L : Lib) (r : Char) : Bool :=
  !L.isLetter r && !L.isNumber r

/-- One iteration of the loop over the pieces: `p[0]` panics on an empty
piece. -/
def addPiece (L : Lib) (varname : Str) (piece : Str) : Except Abort Str :=
  match piece with
  | [] => .error Abort.panic
  | c :: rest => .ok (varname ++ (L.toUpper c :: rest))

/-- The loop `for _, piece := range pieces`. -/
def piecesLoop (L : Lib) : List Str → Str → Except Abort Str
  | [], varname => .ok varname
  | piece :: more, varname =>
      match addPiece L varname piece with
      | .error a => .error a
      | .ok v => piecesLoop L more v

/-- The variable name computed at the start of `writeData`. -/
def varname (L : Lib) (name filename : Str) : Except Abort Str :=
  if name ≠ [] then .ok name
  else piecesLoop L (fieldsFunc (base filename) (isSeparator L)) []

/-- The text of one byte, `fmt.Fprintf(out, "0x%.2x,", b)`. -/
def byteText (b : Byte) : Str :=
  "0x".toList ++ fmtHex2 b.val ++ ",".toList

/-- The loop `for i, b := range data` of `writeData`, from index `i` on with
counter `n`. -/
def writeLoop {σ : Type} (w : Writer σ) (lastbytei : Int) :
    List Byte → Nat → Nat → σ → Except (Abort × σ) σ
  | [], _, _, s => .ok s
  | b :: rest, i, n, s =>
      match fprint w s (byteText b) with
      | .error e => .error e
      | .ok s1 =>
        let n1 := n + 6
        if (i : Int) ≠ lastbytei then
          if n1 ≥ 78 then
            match fprint w s1 "\n\t".toList with
            | .error e => .error e
            | .ok s2 => writeLoop w lastbytei rest (i + 1) 8 s2
          else
            match fprint w s1 " ".toList with
            | .error e => .error e
            | .ok s2 => writeLoop w lastbytei rest (i + 1) n1 s2
        else writeLoop w lastbytei rest (i + 1) n1 s1

/-- The function `writeData`, with the flag `name` as a parameter. -/
def writeData {σ : Type} (L : Lib) (name filename : Str) (data : List Byte)
    (w : Writer σ) (s : σ) : Except (Abort × σ) σ :=
  match varname L name filename with
  | .error a => .error (a, s)
  | .ok v =>
    match fprint w s ("var ".toList ++ v ++ " = [...]byte\x7b\n\t".toList) with
    | .error e => .error e
    | .ok s1 =>
      match writeLoop w ((data.length : Int) - 1) data 0 8 s1 with
      | .error e => .error e
      | .ok s2 => fprint w s2 "\n\x7d\n".toList

/-! ## Writers used to observe the program -/

/-- A writer that never fails and keeps the text written so far. -/
def bufWriter : Writer Str where
  write s text := (s ++ text, false)

/-- The text `writeData` emits on a writer that never fails. -/
def emitted (L : Lib) (name filename : Str) (data : List Byte) : Except (Abort × Str) Str :=
  writeData L name filename data bufWriter []

/-- A library for examples: the Unicode tables restricted to ASCII (letters
`A-Z` and `a-z`, numbers `0-9`, upper-casing of `a-z`) and `filepath.Dir` for
clean paths. -/
def asciiLib : Lib where
  isLetter c := c.isAlpha
  isNumber c := c.isDigit
  toUpper c := c.toUpper
  dir := cleanDir

/-! ## The sequence of writes of `writeData` -/

/-- Issue the given writes in order, each followed by `checkOutputFailure`. -/
def runWrites {σ : Type} (w : Writer σ) : List Str → σ → Except (Abort × σ) σ
  | [], s => .ok s
  | t :: ts, s =>
      match fprint w s t with
      | .error e => .error e
      | .ok s1 => runWrites w ts s1

/-- What follows the literal of byte `i` in a sequence of `total` bytes: nothing
after the last byte, a line break and a tab after every twelfth byte, and a
space otherwise. -/
def sepAfter (total i : Nat) : List Str :=
  if i + 1 = total then []
  else if (i + 1) % 12 = 0 then ["\n\t".toList] else [" ".toList]

/-- The writes of the loop for the bytes from index `i` on. -/
def loopWrites (total : Nat) : List Byte → Nat → List Str
  | [], _ => []
  | b :: rest, i => byteText b :: (sepAfter total i ++ loopWrites total rest (i + 1))

/-- The text of the array body: what is written between the header and the
closing line. -/
def body (data : List Byte) : Str :=
  (loopWrites data.length data 0).flatten

/-- The header written by `writeData` for the variable name `v`. -/
def header (v : Str) : Str :=
  "var ".toList ++ v ++ " = [...]byte\x7b\n\t".toList

/-- All writes of `writeData` for the variable name `v`, in order. -/
def dataWrites (v : Str) (data : List Byte) : List Str :=
  header v :: (loopWrites data.length data 0 ++ ["\n\x7d\n".toList])

/-! ## Reading the emitted text back -/

/-- Blank characters: space, tab and line breaks. -/
def isBlank (c : Char) : Bool :=
  c == ' ' || c == '\t' || c == '\n' || c == '\r'

/-- The hexadecimal digit of a value below sixteen, in lower case. -/
def hexDigitChar (d : Nat) : Char :=
  "0123456789abcdef".toList.getD d '0'

/-- Whether a character is a lower-case hexadecimal digit, `[0-9a-f]`. -/
def isLowerHex (c : Char) : Bool :=
  ('0' ≤ c && c ≤ '9') || ('a' ≤ c && c ≤ 'f')

/-- The value of a hexadecimal digit. -/
def hexValue (c : Char) : Option Nat :=
  if '0' ≤ c ∧ c ≤ '9' then some (c.toNat - '0'.toNat)
  else if 'a' ≤ c ∧ c ≤ 'f' then some (c.toNat - 'a'.toNat + 10)
  else if 'A' ≤ c ∧ c ≤ 'F' then some (c.toNat - 'A'.toNat + 10)
  else none

/-- Decode a sequence of literals `0xHH` that follow each other directly. -/
def decodeLiterals : Str → Option (List Byte)
  | [] => some []
  | c0 :: c1 :: h :: l :: rest =>
      if c0 = '0' ∧ c1 = 'x' then
        match hexValue h, hexValue l, decodeLiterals rest with
        | some a, some b, some bs => some (⟨(16 * a + b) % 256, Nat.mod_lt _ (by decide)⟩ :: bs)
        | _, _, _ => none
      else none
  | _ => none

/-- The characters kept when reading literals back: all but blanks and
commas. -/
def keptChar (c : Char) : Bool := !(isBlank c || c == ',')

/-- Decode a text of literals after dropping blanks and commas. -/
def decodeText (t : Str) : Option (List Byte) :=
  decodeLiterals (t.filter keptChar)

/-- The non-empty fields of a text between the characters that satisfy
`sep`. -/
def fieldsOf (sep : Char → Bool) (t : Str) : List Str :=
  (t.splitOnP sep).filter (fun x => !x.isEmpty)

/-- The blank-separated words of a text. -/
def wordsOf (t : Str) : List Str :=
  fieldsOf isBlank t

/-! ## Name derivation as the specification words it -/

/-- Whether a rune is a letter or a digit. -/
def isLetterOrDigit (L : Lib) (c : Char) : Bool :=
  L.isLetter c || L.isNumber c

/-- The maximal runs of letters and digits of a text, in order; every other
character is a separator and is dropped. -/
def maximalRuns (L : Lib) (t : Str) : List Str :=
  fieldsOf (fun c => !isLetterOrDigit L c) t

/-- A piece with its first character in upper case and the rest unchanged. -/
def upperFirst (L : Lib) : Str → Str
  | [] => []
  | c :: rest => L.toUpper c :: rest

/-- The derived variable name: the runs of the base name, each with its first
character in upper case, concatenated. -/
def derivedName (L : Lib) (filename : Str) : Str :=
  ((maximalRuns L (base filename)).map (upperFirst L)).flatten

/-- A library whose Unicode tables agree with the ASCII ones on ASCII. -/
def AsciiFaithful (L : Lib) : Prop :=
  ∀ c : Char, c.toNat < 128 →
    L.isLetter c = c.isAlpha ∧ L.isNumber c = c.isDigit ∧ L.toUpper c = c.toUpper

/-- The library `L` with its tables replaced on ASCII by the ASCII ones. -/
def asciiPatch (L : Lib) : Lib where
  isLetter c := if c.toNat < 128 then c.isAlpha else L.isLetter c
  isNumber c := if c.toNat < 128 then c.isDigit else L.isNumber c
  toUpper c := if c.toNat < 128 then c.toUpper else L.toUpper c
  dir := L.dir

/-- Whether a text matches `^0x[0-9a-f]{2}$`. -/
def isHexLiteral (t : Str) : Bool :=
  match t with
  | [c0, c1, h, l] => c0 == '0' && c1 == 'x' && isLowerHex h && isLowerHex l
  | _ => false

/-- The literal of a byte: `0x` and its two hexadecimal digits. -/
def literalOf (b : Byte) : Str :=
  ['0', 'x', hexDigitChar (b.val / 16), hexDigitChar (b.val % 16)]

/-! ## The wrapping rule as the specification words it -/

/-- The running column counter after byte `i` has been counted: it starts at 8,
grows by 6 with every byte, and is reset to 8 when a line break has been
emitted after the previous byte, which is when it had reached 78. -/
def counterAfter : Nat → Nat
  | 0 => 8 + 6
  | i + 1 => (if counterAfter i ≥ 78 then 8 else counterAfter i) + 6

/-- What the wrapping rule emits after the literal of byte `i` of `total`
bytes: nothing after the last byte, a line break and a tab when the counter
has reached 78, and a space otherwise. -/
def wrapSep (total i : Nat) : Str :=
  if i + 1 = total then []
  else if counterAfter i ≥ 78 then "\n\t".toList else " ".toList

/-- The display width of a line: a tab counts 8 columns, every other
character 1. -/
def width (line : Str) : Nat :=
  (line.map (fun c => if c = '\t' then 8 else 1)).sum

/-! ## Lines of the body, by groups of bytes -/

/-- The bytes of the body by line: `cur` holds the bytes of the line being
filled, `i` is the index of the next byte. -/
def groupsAux (total : Nat) : List Byte → Nat → List Byte → List (List Byte)
  | [], _, cur => [cur]
  | b :: rest, i, cur =>
      if i + 1 = total then [cur ++ [b]]
      else if (i + 1) % 12 = 0 then (cur ++ [b]) :: groupsAux total rest (i + 1) []
      else groupsAux total rest (i + 1) (cur ++ [b])

/-- Words joined by single spaces. -/
def joinWords : List Str → Str
  | [] => []
  | [w] => w
  | w :: ws => w ++ ' ' :: joinWords ws

/-- The text of the line that holds the bytes `g`. -/
def lineText (g : List Byte) : Str :=
  '\t' :: joinWords (g.map byteText)

/-- The text of a line under construction: each byte so far is followed by a
space. -/
def lineStart (cur : List Byte) : Str :=
  '\t' :: (cur.map (fun b => byteText b ++ [' '])).flatten

/-- The variable name as the specification words it: the explicit name when
one is given, and the name derived from the file name otherwise. -/
def nameUsed (L : Lib) (name filename : Str) : Str :=
  if name ≠ [] then name else derivedName L filename

/-- The array body as the wrapping rule words it: every literal with its comma,
followed by what the rule emits after it. -/
def wrappedBody (data : List Byte) : Str :=
  (data.enum.map (fun p => literalOf p.2 ++ [','] ++ wrapSep data.length p.1)).flatten

/-- The lines of the array body: the text from the tab that follows the
opening line up to the line break before the closing brace, split at line
breaks. -/
def bodyLines (data : List Byte) : List Str :=
  List.splitOn '\n' ('\t' :: wrappedBody data)

/-! ## The process: system calls, state and `main` -/

/-- The outcomes of the system calls. The first argument of each field is the
position, in `flag.Args()`, of the input file being processed when the call is
made. -/
structure Sys where
  /-- The call `ioutil.ReadFile(path)`: the contents, or `none` for an error. -/
  readFile : Nat → Str → Option (List Byte)
  /-- Whether `os.Create(path)` succeeds. -/
  create : Nat → Str → Bool
  /-- The call `filepath.Abs(path)`: the absolute path, or `none` for an error. -/
  abs : Nat → Str → Option Str
  /-- Whether the write number `j` (from 0) on the buffered writer of the output
  returns an error. -/
  writeErr : Nat → Nat → Bool
  /-- Whether `output.Flush()` returns an error. -/
  flushErr : Nat → Bool

/-- What the run does to its surroundings, in order. -/
inductive Event where
  | usage
  | read (path : Str) (ok : Bool)
  | create (path : Str) (ok : Bool)
  | write (path : Str) (text : Str) (ok : Bool)
  | flush (path : Str) (ok : Bool)
  deriving DecidableEq, Repr

/-- The state of the run: the global flag variables and the events so far. -/
structure State where
  flags : Flags
  trace : List Event
  deriving DecidableEq, Repr

/-- Record an event. -/
def State.log (st : State) (e : Event) : State :=
  { st with trace := st.trace ++ [e] }

/-- The function `printUsageAndExit`. -/
def printUsageAndExit (st : State) : Except (Abort × State) State :=
  .error (Abort.exit WRONG_ARGS, st.log Event.usage)

/-- The function `readInput`, for the input at position `k`. -/
def readInput (sys : Sys) (k : Nat) (filename : Str) (st : State) :
    Except (Abort × State) (List Byte × State) :=
  match sys.readFile k filename with
  | none => .error (Abort.exit INPUT_FAIL, st.log (Event.read filename false))
  | some data => .ok (data, st.log (Event.read filename true))

/-- The buffered writer `output` on the file created at `path`, for the input
at position `k`; its state is the state of the run and the number of writes
made on it so far. -/
def fileWriter (sys : Sys) (k : Nat) (path : Str) : Writer (State × Nat) where
  write s text :=
    let err := sys.writeErr k s.2
    ((s.1.log (Event.write path text (!err)), s.2 + 1), err)

/-- The function `writeOutput`, for the input at position `k`. -/
def writeOutput (L : Lib) (sys : Sys) (k : Nat) (filename : Str) (data : List Byte)
    (st : State) : Except (Abort × State) State :=
  -- prepare output file
  let st1 : State :=
    if st.flags.out = [] then { st with flags := { st.flags with out := filename ++ ".go".toList } }
    else st
  let created := sys.create k st1.flags.out
  match checkOutputFailure (st1.log (Event.create st1.flags.out created), !created) with
  | .error e => .error e
  | .ok st2 =>
    -- write package clause if any
    let pkgSet : Except (Abort × State) State :=
      if st2.flags.pkg = [] then
        match sys.abs k st2.flags.out with
        | none => checkOutputFailure (st2, true)
        | some path =>
          match checkOutputFailure (st2, false) with
          | .error e => .error e
          | .ok st3 => .ok { st3 with flags := { st3.flags with pkg := base (L.dir path) } }
      else .ok st2
    match pkgSet with
    | .error e => .error e
    | .ok st3 =>
      let output := fileWriter sys k st3.flags.out
      match fprint output (st3, 0) ("package ".toList ++ st3.flags.pkg ++ "\n\n".toList) with
      | .error (a, s, _) => .error (a, s)
      | .ok s4 =>
        -- write data
        match writeData L st3.flags.name filename data output s4 with
        | .error (a, s, _) => .error (a, s)
        | .ok (st5, _) =>
          -- flush
          let flushErr := sys.flushErr k
          checkOutputFailure (st5.log (Event.flush st5.flags.out (!flushErr)), flushErr)

/-- The loop of `main` over `flag.Args()`, from position `k` on. -/
def mainLoop (L : Lib) (sys : Sys) : List Str → Nat → State → Except (Abort × State) State
  | [], _, st => .ok st
  | filename :: rest, k, st =>
      match readInput sys k filename st with
      | .error e => .error e
      | .ok (data, st1) =>
        match writeOutput L sys k filename data st1 with
        | .error e => .error e
        | .ok st2 => mainLoop L sys rest (k + 1) st2

/-- The function `main` after `flag.Parse()`: `flags` are the parsed flag
values and `args` the positional arguments. -/
def main (L : Lib) (sys : Sys) (flags : Flags) (args : List Str) :
    Except (Abort × State) State :=
  let st : State := { flags := flags, trace := [] }
  if args.length = 0 ∨ (args.length > 1 ∧ (flags.out ≠ [] ∨ flags.name ≠ [])) then
    printUsageAndExit st
  else mainLoop L sys args 0 st

/-- The exit code of a run; `none` stands for a run-time panic. -/
def exitCode (r : Except (Abort × State) State) : Option Nat :=
  match r with
  | .ok _ => some NO_ERROR
  | .error (Abort.exit c, _) => some c
  | .error (Abort.panic, _) => none

/-- The events of a run. -/
def traceOf (r : Except (Abort × State) State) : List Event :=
  match r with
  | .ok st => st.trace
  | .error (_, st) => st.trace

/-! ## Reading a trace -/

/-- The text of the file at `path` after the events, `cur` being its text
before them (`none` when the file has not been created): a successful create
empties the file and a successful write appends to it. -/
def writtenFrom (path : Str) : List Event → Option Str → Option Str
  | [], cur => cur
  | Event.create p ok :: es, cur =>
      if p = path ∧ ok = true then writtenFrom path es (some []) else writtenFrom path es cur
  | Event.write p text ok :: es, cur =>
      if p = path ∧ ok = true then writtenFrom path es (cur.map (fun t => t ++ text))
      else writtenFrom path es cur
  | _ :: es, cur => writtenFrom path es cur

/-- The paths read, in order, with the outcome of each read. -/
def readsOf : List Event → List (Str × Bool)
  | [] => []
  | Event.read p ok :: es => (p, ok) :: readsOf es
  | _ :: es => readsOf es

/-- The paths on which `os.Create` was called, in order. -/
def createsOf : List Event → List Str
  | [] => []
  | Event.create p _ :: es => p :: createsOf es
  | _ :: es => createsOf es

/-- No flag given. -/
def noFlags : Flags := { name := [], out := [], pkg := [] }

/-- A system in which the files of `files` can be read, the working directory
is `/home/gopher/proj`, and nothing fails on the output side. -/
def sysWith (files : List (Str × List Byte)) : Sys where
  readFile _ p := (files.find? (fun f => f.1 == p)).map (fun f => f.2)
  create _ _ := true
  abs _ p := some ("/home/gopher/proj/".toList ++ p)
  writeErr _ _ := false
  flushErr _ := false

/-- The output path as the specification words it: the flag `out` when it is
given, and the input path with `.go` appended otherwise. -/
def outPath (flags : Flags) (filename : Str) : Str :=
  if flags.out = [] then filename ++ ".go".toList else flags.out

/-- The package name used for the output of the input at position `k`: the
flag `pkg` when it is given, and otherwise the base name of the directory of
the absolute output path. -/
def pkgUsed (L : Lib) (sys : Sys) (k : Nat) (flags : Flags) (filename : Str) : Str :=
  if flags.pkg = [] then base (L.dir ((sys.abs k (outPath flags filename)).getD []))
  else flags.pkg

/-- The events of the complete, successful writing of one output file. -/
def fileEvents (path pkg v : Str) (data : List Byte) : List Event :=
  Event.create path true ::
    ((("package ".toList ++ pkg ++ "\n\n".toList) :: dataWrites v data).map
        (fun t => Event.write path t true) ++ [Event.flush path true])

/-- Nothing fails on the output side while the input at position `k` is
processed. -/
def OutputOk (sys : Sys) (k : Nat) : Prop :=
  (∀ p, sys.create k p = true) ∧ (∀ p, sys.abs k p ≠ none) ∧
    (∀ j, sys.writeErr k j = false) ∧ sys.flushErr k = false

/-- The number of successful flushes in a trace. -/
def flushCount : List Event → Nat
  | [] => 0
  | Event.flush _ true :: es => flushCount es + 1
  | _ :: es => flushCount es

/-- The state a sequence of writes on a buffered writer ends in. -/
def endState (r : Except (Abort × State × Nat) (State × Nat)) : State :=
  match r with
  | .error (_, s, _) => s
  | .ok (s, _) => s

/-- The reason a run ended early, if it did. -/
def abortOf {σ τ : Type} (r : Except (Abort × σ) τ) : Option Abort :=
  match r with
  | .error (a, _) => some a
  | .ok _ => none

/-- The text handed to the writer of the output file at `path` since the file
was last created, or `none` when the run has not created the file. -/
def fileText (trace : List Event) (path : Str) : Option Str :=
  writtenFrom path trace none

/-- The arguments that `main` rejects, as the specification words it: no
input, or more than one input together with `-name` or `-out`. -/
def Rejected (flags : Flags) (args : List Str) : Prop :=
  args = [] ∨ (1 < args.length ∧ (flags.name ≠ [] ∨ flags.out ≠ []))

instance (flags : Flags) (args : List Str) : Decidable (Rejected flags args) := by
  unfold Rejected
  infer_instance

/-- A system like `sysWith files` in which no file can be created. -/
def sysNoCreate (files : List (Str × List Byte)) : Sys :=
  { sysWith files with create := fun _ _ => false }

/-! ## Writers that fail -/

/-- The state of a writer after the given writes have been issued on it, in
order, whatever they returned. -/
def stateAfter {σ : Type} (w : Writer σ) : σ → List Str → σ
  | s, [] => s
  | s, t :: ts => stateAfter w (w.write s t).1 ts

/-- Whether write number `k` (from 0) of a sequence of writes returns an error,
the writes before it having been issued. -/
def errAt {σ : Type} (w : Writer σ) : σ → List Str → Nat → Bool
  | _, [], _ => false
  | s, t :: _, 0 => (w.write s t).2
  | s, t :: ts, k + 1 => errAt w (w.write s t).1 ts k

/-- A writer that records the writes issued on it; write number `j` (from 0)
returns an error when `fails j`. -/
def logWriter (fails : Nat → Bool) : Writer (List Str) where
  write log t := (log ++ [t], fails log.length)

/-- The values of the flag variables at the end of a run. -/
def flagsOf (r : Except (Abort × State) State) : Flags :=
  match r with
  | .ok st => st.flags
  | .error (_, st) => st.flags

/-- The events of reading the inputs `args`, from position `k` on, and writing
each of them to the output path and with the package name of `flags`. -/
def steadyEvents (L : Lib) (sys : Sys) (flags : Flags) : List Str → Nat → List Event
  | [], _ => []
  | f :: rest, k =>
      Event.read f true ::
        (fileEvents flags.out flags.pkg (nameUsed L flags.name f) ((sys.readFile k f).getD []) ++
          steadyEvents L sys flags rest (k + 1))

/-! # Theorems -/

/-! ## Facts about single bytes -/

set_option maxRecDepth 100000 in
theorem fmtHex2_byte :
    ∀ b : Byte, fmtHex2 b.val = [hexDigitChar (b.val / 16), hexDigitChar (b.val % 16)] := by
  decide

theorem byteText_eq (b : Byte) : byteText b = literalOf b ++ [','] := by
  simp [byteText, literalOf, fmtHex2_byte]

/-! ## The loop and its sequence of writes -/

theorem writeLoop_eq_runWrites {σ : Type} (w : Writer σ) (total : Nat) :
    ∀ (rest : List Byte) (i n : Nat) (s : σ), total = i + rest.length →
      n = 8 + 6 * (i % 12) →
      writeLoop w ((total : Int) - 1) rest i n s = runWrites w (loopWrites total rest i) s
  | [], i, n, s, _, _ => by simp [writeLoop, loopWrites, runWrites]
  | b :: rest, i, n, s, htot, hn => by
      have hlen : total = (i + 1) + rest.length := by simp at htot; omega
      have ih := fun n1 s1 h => writeLoop_eq_runWrites w total rest (i + 1) n1 s1 hlen h
      simp only [writeLoop, loopWrites, runWrites]
      cases hw : fprint w s (byteText b) with
      | error e => rfl
      | ok s1 =>
        simp only []
        by_cases hlast : i + 1 = total
        · have h1 : ¬ ((i : Int) ≠ (total : Int) - 1) := by omega
          have hnil : rest = [] := List.eq_nil_of_length_eq_zero (by omega)
          subst hnil
          simp only [h1, if_false, sepAfter, hlast, if_true, List.nil_append, writeLoop,
            loopWrites, runWrites]
        · have h1 : (i : Int) ≠ (total : Int) - 1 := by omega
          by_cases hbrk : (i + 1) % 12 = 0
          · have h2 : n + 6 ≥ 78 := by omega
            simp only [h1, if_true, h2, sepAfter, hlast, if_false, hbrk, List.cons_append,
              List.nil_append, runWrites, ne_eq, not_false_eq_true]
            cases fprint w s1 "\n\t".toList with
            | error e => rfl
            | ok s2 => exact ih _ _ (by omega)
          · have h2 : ¬ (n + 6 ≥ 78) := by omega
            simp only [h1, if_true, h2, sepAfter, hlast, if_false, hbrk, List.cons_append,
              List.nil_append, runWrites, ne_eq, not_false_eq_true]
            cases fprint w s1 " ".toList with
            | error e => rfl
            | ok s2 => exact ih _ _ (by omega)

theorem runWrites_append {σ : Type} (w : Writer σ) :
    ∀ (xs ys : List Str) (s : σ),
      runWrites w (xs ++ ys) s =
        match runWrites w xs s with
        | .error e => .error e
        | .ok s1 => runWrites w ys s1
  | [], ys, s => by simp [runWrites]
  | x :: xs, ys, s => by
      simp only [List.cons_append, runWrites]
      cases fprint w s x with
      | error e => rfl
      | ok s1 => exact runWrites_append w xs ys s1

theorem writeData_eq_runWrites {σ : Type} (L : Lib) (name filename : Str)
    (data : List Byte) (w : Writer σ) (s : σ) (v : Str)
    (hv : varname L name filename = .ok v) :
    writeData L name filename data w s = runWrites w (dataWrites v data) s := by
  have hloop := fun s1 => writeLoop_eq_runWrites w data.length data 0 8 s1 (by simp) (by simp)
  simp only [writeData, hv, dataWrites, runWrites, header]
  cases fprint w s ("var ".toList ++ v ++ " = [...]byte\x7b\n\t".toList) with
  | error e => rfl
  | ok s1 =>
    simp only [hloop, runWrites_append]
    cases runWrites w (loopWrites data.length data 0) s1 with
    | error e => rfl
    | ok s2 =>
      simp only [runWrites]
      cases fprint w s2 "\n\x7d\n".toList <;> rfl

theorem runWrites_bufWriter :
    ∀ (ts : List Str) (s : Str), runWrites bufWriter ts s = .ok (s ++ ts.flatten)
  | [], s => by simp [runWrites]
  | t :: ts, s => by
      have ih := runWrites_bufWriter ts (s ++ t)
      simp only [runWrites, fprint, checkOutputFailure, bufWriter] at ih ⊢
      simp [ih]

theorem emitted_eq (L : Lib) (name filename : Str) (data : List Byte) (v : Str)
    (hv : varname L name filename = .ok v) :
    emitted L name filename data = .ok (header v ++ body data ++ "\n\x7d\n".toList) := by
  simp [emitted, writeData_eq_runWrites L name filename data bufWriter [] v hv,
    runWrites_bufWriter, dataWrites, body]

/-! ## Decoding the body -/

set_option maxRecDepth 100000 in
theorem filter_byteText : ∀ b : Byte, (byteText b).filter keptChar = literalOf b := by
  decide

set_option maxRecDepth 100000 in
theorem hexValue_digits : ∀ b : Byte,
    hexValue (hexDigitChar (b.val / 16)) = some (b.val / 16) ∧
      hexValue (hexDigitChar (b.val % 16)) = some (b.val % 16) := by
  decide

theorem decodeLiterals_literalOf (b : Byte) (rest : Str) :
    decodeLiterals (literalOf b ++ rest) = (decodeLiterals rest).map (fun bs => b :: bs) := by
  have h := hexValue_digits b
  have hb : (16 * (b.val / 16) + b.val % 16) % 256 = b.val := by
    have := b.isLt
    omega
  show decodeLiterals
    ('0' :: 'x' :: hexDigitChar (b.val / 16) :: hexDigitChar (b.val % 16) :: rest) = _
  simp only [decodeLiterals, and_self, if_true, h.1, h.2]
  cases decodeLiterals rest with
  | none => rfl
  | some bs => simp [Fin.ext_iff, hb]

theorem filter_sepAfter (total i : Nat) : (sepAfter total i).flatten.filter keptChar = [] := by
  unfold sepAfter
  split
  · rfl
  · split <;> rfl

theorem decode_loopWrites (total : Nat) :
    ∀ (rest : List Byte) (i : Nat),
      decodeLiterals ((loopWrites total rest i).flatten.filter keptChar) = some rest
  | [], _ => by simp [loopWrites, decodeLiterals]
  | b :: rest, i => by
      simp only [loopWrites, List.flatten_cons, List.flatten_append, List.filter_append,
        filter_byteText, filter_sepAfter, List.nil_append, decodeLiterals_literalOf,
        decode_loopWrites total rest (i + 1), Option.map_some']

/-! ## Fields -/

theorem fieldsOf_nil (f : Char → Bool) : fieldsOf f [] = [] := by
  simp [fieldsOf, List.splitOnP_nil]

theorem fieldsOf_sep_cons (f : Char → Bool) (c : Char) (t : Str) (hc : f c = true) :
    fieldsOf f (c :: t) = fieldsOf f t := by
  simp [fieldsOf, List.splitOnP_cons, hc]

theorem fieldsOf_word_sep (f : Char → Bool) (w : Str) (c : Char) (t : Str)
    (hw : ∀ x ∈ w, ¬ f x = true) (hne : w ≠ []) (hc : f c = true) :
    fieldsOf f (w ++ c :: t) = w :: fieldsOf f t := by
  cases w with
  | nil => exact absurd rfl hne
  | cons a w =>
    have h1 : List.splitOnP f ((a :: w) ++ c :: t) = (a :: w) :: List.splitOnP f t :=
      List.splitOnP_first f (a :: w) hw c hc t
    simp only [fieldsOf, h1, List.filter_cons, List.isEmpty_cons, Bool.not_false, if_true]

theorem fieldsOf_word (f : Char → Bool) (w : Str)
    (hw : ∀ x ∈ w, ¬ f x = true) (hne : w ≠ []) :
    fieldsOf f w = [w] := by
  cases w with
  | nil => exact absurd rfl hne
  | cons a w =>
    have h1 : List.splitOnP f (a :: w) = [a :: w] := List.splitOnP_eq_single f (a :: w) hw
    simp only [fieldsOf, h1, List.filter_cons, List.isEmpty_cons, Bool.not_false, if_true,
      List.filter_nil]

theorem fieldsOf_nonempty (f : Char → Bool) (t : Str) : ∀ x ∈ fieldsOf f t, x ≠ [] := by
  intro x hx
  simp only [fieldsOf, List.mem_filter] at hx
  intro h
  simp [h] at hx

theorem fieldsLoop_eq (f : Char → Bool) :
    ∀ (t : Str),
      (∀ acc, fieldsLoop f t none acc = acc.reverse ++ fieldsOf f t) ∧
      (∀ w acc, (∀ x ∈ w, ¬ f x = true) → w ≠ [] →
        fieldsLoop f t (some w) acc = acc.reverse ++ fieldsOf f (w.reverse ++ t))
  | [] => by
      refine ⟨fun acc => by simp [fieldsLoop, fieldsOf_nil], fun w acc hw hne => ?_⟩
      have h1 : fieldsOf f w.reverse = [w.reverse] :=
        fieldsOf_word f w.reverse (by simpa using hw) (by simpa using hne)
      simp [fieldsLoop, h1]
  | c :: cs => by
      obtain ⟨ih1, ih2⟩ := fieldsLoop_eq f cs
      refine ⟨fun acc => ?_, fun w acc hw hne => ?_⟩
      · by_cases hc : f c = true
        · simp [fieldsLoop, hc, ih1, fieldsOf_sep_cons]
        · simp [fieldsLoop, hc, ih2 [c] acc (by simpa using hc) (by simp)]
      · by_cases hc : f c = true
        · have h1 : fieldsOf f (w.reverse ++ c :: cs) = w.reverse :: fieldsOf f cs :=
            fieldsOf_word_sep f w.reverse c cs (by simpa using hw) (by simpa using hne) hc
          simp [fieldsLoop, hc, ih1, h1]
        · have h2 := ih2 (c :: w) acc
            (by intro x hx; rcases List.mem_cons.1 hx with h | h
                · rw [h]; exact hc
                · exact hw x h) (by simp)
          simp [fieldsLoop, hc, h2]

theorem fieldsFunc_eq (t : Str) (f : Char → Bool) : fieldsFunc t f = fieldsOf f t := by
  simp [fieldsFunc, (fieldsLoop_eq f t).1]

/-! ## The variable name -/

theorem piecesLoop_eq (L : Lib) :
    ∀ (ps : List Str) (v : Str), (∀ x ∈ ps, x ≠ []) →
      piecesLoop L ps v = .ok (v ++ (ps.map (upperFirst L)).flatten)
  | [], v, _ => by simp [piecesLoop]
  | p :: ps, v, h => by
      cases p with
      | nil => exact absurd rfl (h [] (by simp))
      | cons c rest =>
        simp [piecesLoop, addPiece, upperFirst,
          piecesLoop_eq L ps _ (fun x hx => h x (List.mem_cons_of_mem _ hx))]

theorem isSeparator_eq (L : Lib) : isSeparator L = fun c => !isLetterOrDigit L c := by
  funext c
  simp [isSeparator, isLetterOrDigit]

theorem varname_derived (L : Lib) (filename : Str) :
    varname L [] filename = .ok (derivedName L filename) := by
  simp [varname, derivedName, maximalRuns, fieldsFunc_eq, isSeparator_eq,
    piecesLoop_eq L _ [] (fieldsOf_nonempty _ _)]

theorem varname_explicit (L : Lib) (name filename : Str) (h : name ≠ []) :
    varname L name filename = .ok name := by
  simp [varname, h]

theorem asciiPatch_eq (L : Lib) (h : AsciiFaithful L) : asciiPatch L = L := by
  cases L with
  | mk isL isN up d =>
    simp only [asciiPatch, Lib.mk.injEq, and_true]
    refine ⟨?_, ?_, ?_⟩ <;> funext c <;> by_cases hc : c.toNat < 128
    · simpa [hc] using (h c hc).1.symm
    · simp [hc]
    · simpa [hc] using (h c hc).2.1.symm
    · simp [hc]
    · simpa [hc] using (h c hc).2.2.symm
    · simp [hc]

/-! ## The words of the body -/

set_option maxRecDepth 100000 in
theorem byteText_noBlank : ∀ b : Byte, (byteText b).all (fun c => !isBlank c) = true := by
  decide

set_option maxRecDepth 100000 in
theorem literalOf_isHexLiteral : ∀ b : Byte, isHexLiteral (literalOf b) = true := by
  decide

theorem byteText_word (b : Byte) : (∀ x ∈ byteText b, ¬ isBlank x = true) ∧ byteText b ≠ [] := by
  refine ⟨fun x hx => ?_, by simp [byteText_eq, literalOf]⟩
  have h := List.all_eq_true.1 (byteText_noBlank b) x hx
  simpa using h

theorem wordsOf_loopWrites (total : Nat) :
    ∀ (rest : List Byte) (i : Nat), total = i + rest.length →
      fieldsOf isBlank ((loopWrites total rest i).flatten ++ ['\n']) = rest.map byteText
  | [], _, _ => by
      simp [loopWrites, fieldsOf_sep_cons isBlank '\n' [] (by decide), fieldsOf_nil]
  | b :: rest, i, htot => by
      have hlen : total = (i + 1) + rest.length := by simp at htot; omega
      have ih := wordsOf_loopWrites total rest (i + 1) hlen
      obtain ⟨hw, hne⟩ := byteText_word b
      simp only [loopWrites, List.flatten_cons, List.flatten_append, List.map_cons,
        List.append_assoc]
      by_cases hlast : i + 1 = total
      · have hnil : rest = [] := List.eq_nil_of_length_eq_zero (by omega)
        subst hnil
        simp only [sepAfter, hlast, if_true, List.flatten_nil, loopWrites, List.nil_append,
          List.map_nil]
        rw [fieldsOf_word_sep isBlank _ '\n' [] hw hne (by decide), fieldsOf_nil]
      · by_cases hbrk : (i + 1) % 12 = 0
        · simp only [sepAfter, hlast, if_false, hbrk, if_true, List.flatten_cons,
            List.flatten_nil, List.append_nil]
          show fieldsOf isBlank (byteText b ++ '\n' :: '\t' ::
            ((loopWrites total rest (i + 1)).flatten ++ ['\n'])) = _
          rw [fieldsOf_word_sep isBlank _ '\n' _ hw hne (by decide),
            fieldsOf_sep_cons isBlank '\t' _ (by decide), ih]
        · simp only [sepAfter, hlast, if_false, hbrk, List.flatten_cons,
            List.flatten_nil, List.append_nil]
          show fieldsOf isBlank (byteText b ++ ' ' ::
            ((loopWrites total rest (i + 1)).flatten ++ ['\n'])) = _
          rw [fieldsOf_word_sep isBlank _ ' ' _ hw hne (by decide), ih]

theorem wordsOf_body (data : List Byte) :
    wordsOf ("\n\t".toList ++ body data ++ "\n".toList) = data.map byteText := by
  have h := wordsOf_loopWrites data.length data 0 (by simp)
  show fieldsOf isBlank ('\n' :: '\t' :: (body data ++ ['\n'])) = _
  rw [fieldsOf_sep_cons isBlank '\n' _ (by decide), fieldsOf_sep_cons isBlank '\t' _ (by decide)]
  exact h

theorem decodeText_body (data : List Byte) :
    decodeText ("\n\t".toList ++ body data ++ "\n".toList) = some data := by
  have h := decode_loopWrites data.length data 0
  have h1 : ("\n\t".toList ++ body data ++ "\n".toList).filter keptChar
      = (body data).filter keptChar := by
    have e1 : "\n\t".toList.filter keptChar = [] := by decide
    have e2 : "\n".toList.filter keptChar = [] := by decide
    simp only [List.filter_append, e1, e2, List.nil_append, List.append_nil]
  unfold decodeText
  rw [h1]
  exact h

theorem emitted_split (L : Lib) (name filename : Str) (data : List Byte) (v : Str)
    (hv : varname L name filename = .ok v) :
    emitted L name filename data =
      .ok ("var ".toList ++ v ++ " = [...]byte\x7b".toList ++
        ("\n\t".toList ++ body data ++ "\n".toList) ++ "\x7d\n".toList) := by
  rw [emitted_eq L name filename data v hv]
  simp [header]

theorem varname_total (L : Lib) (name filename : Str) :
    ∃ v, varname L name filename = .ok v := by
  by_cases h : name = []
  · subst h
    exact ⟨_, varname_derived L filename⟩
  · exact ⟨_, varname_explicit L name filename h⟩

/-! # The claims -/

/-- C1. Round trip: for every byte sequence, the empty one included, the text
that `writeData` emits between the opening brace and the closing brace,
read back by dropping blanks and commas and decoding the `0xHH` literals in
order, is the byte sequence itself. -/
theorem C1_round_trip (L : Lib) (name filename : Str) (data : List Byte) :
    ∃ v mid, varname L name filename = .ok v ∧
      emitted L name filename data =
        .ok ("var ".toList ++ v ++ " = [...]byte\x7b".toList ++ mid ++ "\x7d\n".toList) ∧
      decodeText mid = some data := by
  obtain ⟨v, hv⟩ := varname_total L name filename
  exact ⟨v, _, hv, emitted_split L name filename data v hv, decodeText_body data⟩

/-- C2. The array body emitted by `writeData` consists of exactly `len(B)`
blank-separated words; the i-th word is the literal of `B[i]` followed by a
comma, and the literal of a byte is `0x` followed by its two lower-case
hexadecimal digits (high digit first), which matches `^0x[0-9a-f]{2}$`. This
holds for every byte sequence, in particular for the non-empty ones. -/
theorem C2_literals (L : Lib) (name filename : Str) (data : List Byte) :
    ∃ v mid, varname L name filename = .ok v ∧
      emitted L name filename data =
        .ok ("var ".toList ++ v ++ " = [...]byte\x7b".toList ++ mid ++ "\x7d\n".toList) ∧
      (wordsOf mid).length = data.length ∧
      wordsOf mid = data.map (fun b => literalOf b ++ [',']) ∧
      (∀ b : Byte, isHexLiteral (literalOf b) = true ∧
        literalOf b = ['0', 'x', hexDigitChar (b.val / 16), hexDigitChar (b.val % 16)] ∧
        hexValue (hexDigitChar (b.val / 16)) = some (b.val / 16) ∧
        hexValue (hexDigitChar (b.val % 16)) = some (b.val % 16)) := by
  obtain ⟨v, hv⟩ := varname_total L name filename
  refine ⟨v, _, hv, emitted_split L name filename data v hv, ?_, ?_, ?_⟩
  · rw [wordsOf_body, List.length_map]
  · rw [wordsOf_body]
    exact List.map_congr_left (fun b _ => byteText_eq b)
  · intro b
    exact ⟨literalOf_isHexLiteral b, rfl, hexValue_digits b⟩

/-! ## The counter -/

theorem counterAfter_eq : ∀ i : Nat, counterAfter i = 8 + 6 * (i % 12 + 1)
  | 0 => by simp [counterAfter]
  | i + 1 => by
      have ih := counterAfter_eq i
      simp only [counterAfter, ih]
      split <;> omega

theorem counterAfter_ge_iff (i : Nat) : counterAfter i ≥ 78 ↔ (i + 1) % 12 = 0 := by
  rw [counterAfter_eq]
  omega

theorem sepAfter_flatten (total i : Nat) : (sepAfter total i).flatten = wrapSep total i := by
  unfold sepAfter wrapSep
  by_cases h1 : i + 1 = total
  · simp [h1]
  · by_cases h2 : (i + 1) % 12 = 0
    · have h3 : counterAfter i ≥ 78 := (counterAfter_ge_iff i).2 h2
      simp [h1, h2, h3]
    · have h3 : ¬ counterAfter i ≥ 78 := fun h => h2 ((counterAfter_ge_iff i).1 h)
      simp only [h1, h2, h3, if_false, List.flatten_cons, List.flatten_nil, List.append_nil]

theorem loopWrites_flatten (total : Nat) :
    ∀ (rest : List Byte) (i : Nat),
      (loopWrites total rest i).flatten =
        ((rest.enumFrom i).map (fun p => byteText p.2 ++ wrapSep total p.1)).flatten
  | [], _ => by simp [loopWrites]
  | b :: rest, i => by
      simp only [loopWrites, List.flatten_cons, List.flatten_append, sepAfter_flatten,
        List.enumFrom_cons, List.map_cons, loopWrites_flatten total rest (i + 1),
        List.append_assoc]

theorem body_eq_enum (data : List Byte) :
    body data =
      (data.enum.map (fun p => byteText p.2 ++ wrapSep data.length p.1)).flatten := by
  simp only [body, loopWrites_flatten, List.enum]

/-! ## Lines -/

theorem joinWords_cons_cons (w w1 : Str) (ws : List Str) :
    joinWords (w :: w1 :: ws) = w ++ ' ' :: joinWords (w1 :: ws) := rfl

theorem joinWords_snoc :
    ∀ (cur : List Byte) (b : Byte),
      (cur.map (fun b => byteText b ++ [' '])).flatten ++ byteText b
        = joinWords ((cur ++ [b]).map byteText)
  | [], b => by simp [joinWords]
  | a :: cur, b => by
      have ih := joinWords_snoc cur b
      cases cur with
      | nil =>
        simp only [List.map_cons, List.map_nil, List.flatten_cons, List.flatten_nil,
          List.append_nil, List.nil_append, List.cons_append, joinWords_cons_cons, joinWords,
          List.append_assoc, List.singleton_append]
      | cons c cur =>
        simp only [List.map_cons, List.flatten_cons, List.cons_append, joinWords_cons_cons,
          List.append_assoc, List.singleton_append] at ih ⊢
        rw [ih]
        rfl

theorem lineStart_snoc (cur : List Byte) (b : Byte) :
    lineStart cur ++ byteText b = lineText (cur ++ [b]) := by
  simp only [lineStart, lineText, List.cons_append, joinWords_snoc]

theorem lineStart_snoc_space (cur : List Byte) (b : Byte) :
    lineStart cur ++ byteText b ++ [' '] = lineStart (cur ++ [b]) := by
  simp [lineStart]

theorem mem_joinWords :
    ∀ (ws : List Str) (x : Char), x ∈ joinWords ws → x = ' ' ∨ ∃ w ∈ ws, x ∈ w
  | [], x, h => by simp [joinWords] at h
  | [w], x, h => by
      right
      exact ⟨w, by simp, by simpa [joinWords] using h⟩
  | w :: w1 :: ws, x, h => by
      rw [joinWords_cons_cons] at h
      rcases List.mem_append.1 h with h1 | h1
      · exact Or.inr ⟨w, by simp, h1⟩
      · rcases List.mem_cons.1 h1 with h2 | h2
        · exact Or.inl h2
        · rcases mem_joinWords (w1 :: ws) x h2 with h3 | ⟨w2, hw2, hx⟩
          · exact Or.inl h3
          · exact Or.inr ⟨w2, List.mem_cons_of_mem _ hw2, hx⟩

theorem lineText_no_newline (g : List Byte) : ∀ x ∈ lineText g, ¬ (x == '\n') = true := by
  intro x hx
  simp only [lineText, List.mem_cons] at hx
  rcases hx with h | h
  · rw [h]; decide
  · rcases mem_joinWords _ x h with h1 | ⟨w, hw, hxw⟩
    · rw [h1]; decide
    · obtain ⟨b, _, rfl⟩ := List.mem_map.1 hw
      have hb := (byteText_word b).1 x hxw
      intro hn
      have : x = '\n' := by simpa using hn
      rw [this] at hb
      exact hb (by decide)

theorem splitOn_loop (total : Nat) :
    ∀ (rest : List Byte) (i : Nat) (cur : List Byte), total = i + rest.length →
      (rest = [] → cur = []) →
      List.splitOn '\n' (lineStart cur ++ (loopWrites total rest i).flatten)
        = (groupsAux total rest i cur).map lineText
  | [], i, cur, _, hcur => by
      rw [hcur rfl]
      simp only [loopWrites, List.flatten_nil, List.append_nil, groupsAux, List.map_cons,
        List.map_nil]
      exact List.splitOnP_eq_single _ _ (lineText_no_newline [])
  | b :: rest, i, cur, htot, _ => by
      have hlen : total = (i + 1) + rest.length := by simp at htot; omega
      simp only [loopWrites, List.flatten_cons, List.flatten_append, groupsAux]
      by_cases hlast : i + 1 = total
      · have hnil : rest = [] := List.eq_nil_of_length_eq_zero (by omega)
        subst hnil
        simp only [sepAfter, hlast, if_true, List.flatten_nil, loopWrites, List.nil_append,
          List.append_nil, List.map_cons, List.map_nil, lineStart_snoc]
        exact List.splitOnP_eq_single _ _ (lineText_no_newline _)
      · have hne : rest ≠ [] := by
          intro h
          rw [h] at hlen
          simp at hlen
          omega
        by_cases hbrk : (i + 1) % 12 = 0
        · have ih := splitOn_loop total rest (i + 1) [] hlen (fun h => absurd h hne)
          simp only [sepAfter, hlast, if_false, hbrk, if_true, List.flatten_cons,
            List.flatten_nil, List.append_nil, List.map_cons]
          have e : lineStart cur ++ (byteText b ++ ("\n\t".toList ++
              (loopWrites total rest (i + 1)).flatten))
              = lineText (cur ++ [b]) ++ '\n' ::
                (lineStart [] ++ (loopWrites total rest (i + 1)).flatten) := by
            rw [← lineStart_snoc]
            simp [lineStart]
          rw [e, ← ih]
          exact List.splitOnP_first _ _ (lineText_no_newline _) '\n' (by decide) _
        · have ih := splitOn_loop total rest (i + 1) (cur ++ [b]) hlen (fun h => absurd h hne)
          simp only [sepAfter, hlast, if_false, hbrk, List.flatten_cons,
            List.flatten_nil, List.append_nil]
          have e : lineStart cur ++ (byteText b ++ (" ".toList ++
              (loopWrites total rest (i + 1)).flatten))
              = lineStart (cur ++ [b]) ++ (loopWrites total rest (i + 1)).flatten := by
            rw [← lineStart_snoc_space]
            simp
          rw [e, ih]

theorem groupsAux_shape (total : Nat) :
    ∀ (rest : List Byte) (i : Nat) (cur : List Byte), total = i + rest.length →
      cur.length = i % 12 → rest ≠ [] →
      ∃ init last, groupsAux total rest i cur = init ++ [last] ∧
        (∀ g ∈ init, g.length = 12) ∧ 1 ≤ last.length ∧ last.length ≤ 12
  | [], _, _, _, _, hne => absurd rfl hne
  | b :: rest, i, cur, htot, hcur, _ => by
      have hlen : total = (i + 1) + rest.length := by simp at htot; omega
      simp only [groupsAux]
      by_cases hlast : i + 1 = total
      · refine ⟨[], cur ++ [b], by simp [hlast], by simp, by simp, ?_⟩
        simp only [List.length_append, List.length_singleton]
        omega
      · have hne : rest ≠ [] := by
          intro h
          rw [h] at hlen
          simp at hlen
          omega
        by_cases hbrk : (i + 1) % 12 = 0
        · obtain ⟨init, last, h1, h2, h3, h4⟩ :=
            groupsAux_shape total rest (i + 1) [] hlen (by simp [hbrk]) hne
          refine ⟨(cur ++ [b]) :: init, last, by simp [hlast, hbrk, h1], ?_, h3, h4⟩
          intro g hg
          rcases List.mem_cons.1 hg with h | h
          · rw [h]
            simp only [List.length_append, List.length_singleton]
            omega
          · exact h2 g h
        · obtain ⟨init, last, h1, h2, h3, h4⟩ :=
            groupsAux_shape total rest (i + 1) (cur ++ [b]) hlen
              (by simp only [List.length_append, List.length_singleton]; omega) hne
          exact ⟨init, last, by simp [hlast, hbrk, h1], h2, h3, h4⟩

theorem wordsOf_joinWords :
    ∀ (ws : List Str), (∀ w ∈ ws, (∀ x ∈ w, ¬ isBlank x = true) ∧ w ≠ []) →
      fieldsOf isBlank (joinWords ws) = ws
  | [], _ => by simp [joinWords, fieldsOf_nil]
  | [w], h => by
      have hw := h w (by simp)
      simpa [joinWords] using fieldsOf_word isBlank w hw.1 hw.2
  | w :: w1 :: ws, h => by
      have hw := h w (by simp)
      rw [joinWords_cons_cons, fieldsOf_word_sep isBlank w ' ' _ hw.1 hw.2 (by decide),
        wordsOf_joinWords (w1 :: ws) (fun x hx => h x (List.mem_cons_of_mem _ hx))]

theorem wordsOf_lineText (g : List Byte) : wordsOf (lineText g) = g.map byteText := by
  unfold wordsOf lineText
  rw [fieldsOf_sep_cons isBlank '\t' _ (by decide)]
  apply wordsOf_joinWords
  intro w hw
  obtain ⟨b, _, rfl⟩ := List.mem_map.1 hw
  exact byteText_word b

theorem width_append (a b : Str) : width (a ++ b) = width a + width b := by
  simp [width, List.sum_append]

theorem width_cons (c : Char) (a : Str) :
    width (c :: a) = (if c = '\t' then 8 else 1) + width a := by
  simp [width]

set_option maxRecDepth 100000 in
theorem width_byteText : ∀ b : Byte, width (byteText b) = 5 := by
  decide

theorem width_joinWords :
    ∀ (g : List Byte), width (joinWords (g.map byteText)) + 1 = 6 * g.length ∨ g = []
  | [] => Or.inr rfl
  | [b] => by
      left
      simp [joinWords, width_byteText]
  | b :: b1 :: g => by
      left
      have ih := width_joinWords (b1 :: g)
      simp only [List.map_cons, joinWords_cons_cons, width_append, width_cons, width_byteText,
        List.length_cons] at ih ⊢
      rcases ih with h | h
      · have e : ('\x20' = '\t') = False := by decide
        simp only [e, if_false]
        omega
      · exact absurd h (by simp)

theorem width_lineText (g : List Byte) (hg : g.length ≤ 12) : width (lineText g) ≤ 79 := by
  unfold lineText
  rw [width_cons]
  simp only [if_true]
  rcases width_joinWords g with h | h
  · omega
  · subst h
    simp [joinWords, width]

theorem body_eq_wrappedBody (data : List Byte) : body data = wrappedBody data := by
  rw [body_eq_enum]
  simp only [wrappedBody, byteText_eq]

theorem bodyLines_eq (data : List Byte) :
    bodyLines data = (groupsAux data.length data 0 []).map lineText := by
  have h := splitOn_loop data.length data 0 [] (by simp) (fun _ => rfl)
  rw [← h]
  simp only [bodyLines, ← body_eq_wrappedBody, body, lineStart, List.map_nil,
    List.flatten_nil, List.cons_append, List.nil_append]

theorem varname_nameUsed (L : Lib) (name filename : Str) :
    varname L name filename = .ok (nameUsed L name filename) := by
  by_cases h : name = []
  · subst h
    simpa [nameUsed] using varname_derived L filename
  · simpa [nameUsed, h] using varname_explicit L name filename h

theorem emitted_nameUsed (L : Lib) (name filename : Str) (data : List Byte) :
    emitted L name filename data =
      .ok ("var ".toList ++ nameUsed L name filename ++ " = [...]byte\x7b\n".toList ++
        ('\t' :: wrappedBody data) ++ "\n\x7d\n".toList) := by
  have hv := varname_nameUsed L name filename
  rw [emitted_eq L name filename data _ hv, body_eq_wrappedBody]
  simp [header]

theorem wrapSep_cases (total i : Nat) :
    (wrapSep total i = "\n\t".toList ↔ (i + 1) % 12 = 0 ∧ i + 1 ≠ total) ∧
    (wrapSep total i = " ".toList ↔ (i + 1) % 12 ≠ 0 ∧ i + 1 ≠ total) ∧
    (wrapSep total i = [] ↔ i + 1 = total) := by
  unfold wrapSep
  by_cases h1 : i + 1 = total
  · simp [h1]
  · by_cases h2 : (i + 1) % 12 = 0
    · have h3 : counterAfter i ≥ 78 := (counterAfter_ge_iff i).2 h2
      simp [h1, h2, h3]
    · have h3 : ¬ counterAfter i ≥ 78 := fun h => h2 ((counterAfter_ge_iff i).1 h)
      simp [h1, h2, h3]

theorem groupsAux_empty (total i : Nat) (cur : List Byte) :
    groupsAux total [] i cur = [cur] := rfl

theorem bodyLines_shape (data : List Byte) (hne : data ≠ []) :
    ∃ (init : List (List Byte)) (last : List Byte),
      bodyLines data = init.map lineText ++ [lineText last] ∧
      (∀ g ∈ init, g.length = 12) ∧ 1 ≤ last.length ∧ last.length ≤ 12 := by
  obtain ⟨init, last, h1, h2, h3, h4⟩ :=
    groupsAux_shape data.length data 0 [] (by simp) (by simp) hne
  exact ⟨init, last, by simp [bodyLines_eq, h1], h2, h3, h4⟩

theorem bodyLines_width (data : List Byte) : ∀ line ∈ bodyLines data, width line ≤ 79 := by
  intro line hl
  by_cases hne : data = []
  · subst hne
    have e : bodyLines [] = [lineText []] := by simp [bodyLines_eq, groupsAux_empty]
    rw [e] at hl
    rw [List.mem_singleton.1 hl]
    exact width_lineText [] (by simp)
  · obtain ⟨init, last, h1, h2, _, h4⟩ := bodyLines_shape data hne
    rw [h1] at hl
    rcases List.mem_append.1 hl with h | h
    · obtain ⟨g, hg, rfl⟩ := List.mem_map.1 h
      exact width_lineText g (by rw [h2 g hg])
    · rw [List.mem_singleton.1 h]
      exact width_lineText last h4

/-- C4 (amended). Wrapping rule, for every non-empty byte sequence of length
`n`: the body is the sequence of the literals, each with its comma and followed
by what the rule emits after byte `i`, which is nothing after the last byte, a
line break plus one tab when the running counter (start 8, +6 per byte, reset
to 8 on a break) has reached 78 after byte `i`, and a single space otherwise.
The counter has reached 78 after byte `i` exactly when `i + 1` is a multiple of
12, so a break follows byte `i` iff `i + 1` is a multiple of 12 and `i` is not
the last byte; every body line except the last holds exactly 12 literals, and
the last holds between 1 and 12. -/
theorem C4_wrapping (L : Lib) (name filename : Str) (data : List Byte) (hne : data ≠ []) :
    emitted L name filename data =
        .ok ("var ".toList ++ nameUsed L name filename ++ " = [...]byte\x7b\n".toList ++
          ('\t' :: wrappedBody data) ++ "\n\x7d\n".toList) ∧
      (∀ i : Nat, (counterAfter i ≥ 78 ↔ (i + 1) % 12 = 0) ∧
        (wrapSep data.length i = "\n\t".toList ↔ (i + 1) % 12 = 0 ∧ i + 1 ≠ data.length) ∧
        (wrapSep data.length i = " ".toList ↔ (i + 1) % 12 ≠ 0 ∧ i + 1 ≠ data.length) ∧
        (wrapSep data.length i = [] ↔ i + 1 = data.length)) ∧
      ∃ init last, bodyLines data = init ++ [last] ∧
        (∀ l ∈ init, (wordsOf l).length = 12) ∧
        1 ≤ (wordsOf last).length ∧ (wordsOf last).length ≤ 12 ∧
        (∀ l ∈ init ++ [last], ∀ w ∈ wordsOf l, ∃ b : Byte, w = literalOf b ++ [',']) := by
  refine ⟨emitted_nameUsed L name filename data,
    fun i => ⟨counterAfter_ge_iff i, wrapSep_cases data.length i⟩, ?_⟩
  obtain ⟨init, last, h1, h2, h3, h4⟩ := bodyLines_shape data hne
  refine ⟨init.map lineText, lineText last, h1, ?_, ?_, ?_, ?_⟩
  · intro l hl
    obtain ⟨g, hg, rfl⟩ := List.mem_map.1 hl
    rw [wordsOf_lineText, List.length_map, h2 g hg]
  · rw [wordsOf_lineText, List.length_map]
    exact h3
  · rw [wordsOf_lineText, List.length_map]
    exact h4
  · intro l hl w hw
    have hl1 : ∃ g, l = lineText g := by
      rcases List.mem_append.1 hl with h | h
      · obtain ⟨g, _, rfl⟩ := List.mem_map.1 h
        exact ⟨g, rfl⟩
      · exact ⟨last, List.mem_singleton.1 h⟩
    obtain ⟨g, rfl⟩ := hl1
    rw [wordsOf_lineText] at hw
    obtain ⟨b, _, rfl⟩ := List.mem_map.1 hw
    exact ⟨b, byteText_eq b⟩

/-- C4, witness: the rule at the three bytes `00 ff 10`. -/
theorem C4_wrapping_witness :
    ([0, 255, 16] : List Byte) ≠ [] ∧
      ∃ init last, bodyLines [0, 255, 16] = init ++ [last] ∧
        (∀ l ∈ init, (wordsOf l).length = 12) ∧
        1 ≤ (wordsOf last).length ∧ (wordsOf last).length ≤ 12 ∧
        (∀ l ∈ init ++ [last], ∀ w ∈ wordsOf l, ∃ b : Byte, w = literalOf b ++ [',']) :=
  ⟨by decide, (C4_wrapping asciiLib [] "a.bin".toList [0, 255, 16] (by decide)).2.2⟩

/-- C4, counterexample: for the empty byte sequence the body is the single
line that holds the tab, and that last line holds no literal, not between 1
and 12. -/
theorem C4_counterexample :
    emitted asciiLib [] "a.bin".toList [] = .ok "var ABin = [...]byte\x7b\n\t\n\x7d\n".toList ∧
      bodyLines [] = ["\t".toList] ∧
      ¬ (1 ≤ (wordsOf "\t".toList).length) := by
  decide

/-- C5 (amended). Every line of the array body emitted by `writeData` is at
most 79 columns wide, the leading tab counting 8 columns and every other
character 1. -/
theorem C5_line_width (L : Lib) (name filename : Str) (data : List Byte) :
    emitted L name filename data =
        .ok ("var ".toList ++ nameUsed L name filename ++ " = [...]byte\x7b\n".toList ++
          ('\t' :: wrappedBody data) ++ "\n\x7d\n".toList) ∧
      ∀ line ∈ bodyLines data, width line ≤ 79 :=
  ⟨emitted_nameUsed L name filename data, bodyLines_width data⟩

/-- C5, counterexample: the body of twelve zero bytes is one line of 79
columns, more than 78. -/
theorem C5_counterexample :
    emitted asciiLib [] "a.bin".toList (List.replicate 12 0) =
        .ok ("var ABin = [...]byte\x7b\n".toList ++
          "\t0x00, 0x00, 0x00, 0x00, 0x00, 0x00, 0x00, 0x00, 0x00, 0x00, 0x00, 0x00,".toList ++
          "\n\x7d\n".toList) ∧
      bodyLines (List.replicate 12 0) =
        ["\t0x00, 0x00, 0x00, 0x00, 0x00, 0x00, 0x00, 0x00, 0x00, 0x00, 0x00, 0x00,".toList] ∧
      width "\t0x00, 0x00, 0x00, 0x00, 0x00, 0x00, 0x00, 0x00, 0x00, 0x00, 0x00, 0x00,".toList
        = 79 ∧
      ¬ (∀ line ∈ bodyLines (List.replicate 12 0), width line ≤ 78) := by
  decide

/-- C6. Name derivation: when no explicit name is given, the variable name
used by `writeData` is the concatenation, in order, of the maximal runs of
letters and digits of the base name of the path, each run with its first
character upper-cased and the rest unchanged. With Unicode tables that agree
with the ASCII ones on ASCII, `my-file.bin` gives `MyFileBin` and `123abc.DAT`
gives `123abcDAT`. -/
theorem C6_name_derivation (L : Lib) (filename : Str) (data : List Byte) :
    varname L [] filename =
        .ok (((maximalRuns L (base filename)).map (upperFirst L)).flatten) ∧
      emitted L [] filename data =
        .ok ("var ".toList ++ ((maximalRuns L (base filename)).map (upperFirst L)).flatten ++
          " = [...]byte\x7b\n\t".toList ++ wrappedBody data ++ "\n\x7d\n".toList) ∧
      (AsciiFaithful L →
        derivedName L "my-file.bin".toList = "MyFileBin".toList ∧
        derivedName L "123abc.DAT".toList = "123abcDAT".toList) := by
  refine ⟨varname_derived L filename, ?_, fun h => ?_⟩
  · have h1 := emitted_nameUsed L [] filename data
    simpa [nameUsed, derivedName] using h1
  · have h1 : derivedName (asciiPatch L) "my-file.bin".toList = "MyFileBin".toList := rfl
    have h2 : derivedName (asciiPatch L) "123abc.DAT".toList = "123abcDAT".toList := rfl
    rw [asciiPatch_eq L h] at h1 h2
    exact ⟨h1, h2⟩

/-- C6, witness: the tables of `asciiLib` agree with the ASCII ones, and with
them `my-file.bin` gives `MyFileBin` and `123abc.DAT` gives `123abcDAT`. -/
theorem C6_name_derivation_witness :
    AsciiFaithful asciiLib ∧
      derivedName asciiLib "my-file.bin".toList = "MyFileBin".toList ∧
      derivedName asciiLib "123abc.DAT".toList = "123abcDAT".toList :=
  ⟨fun _ _ => ⟨rfl, rfl, rfl⟩,
    (C6_name_derivation asciiLib [] []).2.2 (fun _ _ => ⟨rfl, rfl, rfl⟩)⟩

/-- C7. For every non-empty explicit name, every input path and every byte
sequence, the text emitted by `writeData` begins with `var`, the name as it
was given, and `= [...]byte{`; the input file name has no influence on it. -/
theorem C7_explicit_name (L : Lib) (name filename other : Str) (data : List Byte)
    (hname : name ≠ []) :
    varname L name filename = .ok name ∧
      emitted L name filename data =
        .ok ("var ".toList ++ name ++ " = [...]byte\x7b".toList ++
          ("\n\t".toList ++ wrappedBody data ++ "\n\x7d\n".toList)) ∧
      emitted L name filename data = emitted L name other data := by
  have h1 := emitted_nameUsed L name filename data
  have h2 := emitted_nameUsed L name other data
  simp only [nameUsed, hname, ne_eq, not_false_eq_true, if_true] at h1 h2
  refine ⟨varname_explicit L name filename hname, ?_, ?_⟩
  · rw [h1]
    simp
  · rw [h1, h2]

/-- C7, witness: the name `foo` for the file `a.bin`. -/
theorem C7_explicit_name_witness :
    "foo".toList ≠ [] ∧
      emitted asciiLib "foo".toList "a.bin".toList [0, 255, 16] =
        .ok ("var ".toList ++ "foo".toList ++ " = [...]byte\x7b".toList ++
          ("\n\t".toList ++ wrappedBody [0, 255, 16] ++ "\n\x7d\n".toList)) :=
  ⟨by decide,
    (C7_explicit_name asciiLib "foo".toList "a.bin".toList "b.bin".toList [0, 255, 16]
      (by decide)).2.1⟩

/-! ## Writing one output file -/

theorem runWrites_fileWriter (sys : Sys) (k : Nat) (path : Str)
    (h : ∀ j, sys.writeErr k j = false) :
    ∀ (ts : List Str) (st : State) (j : Nat),
      runWrites (fileWriter sys k path) ts (st, j) =
        .ok (⟨st.flags, st.trace ++ ts.map (fun t => Event.write path t true)⟩, j + ts.length)
  | [], st, j => by simp [runWrites]
  | t :: ts, st, j => by
      have ih := runWrites_fileWriter sys k path h ts (st.log (Event.write path t true)) (j + 1)
      simp only [runWrites, fprint, checkOutputFailure, fileWriter, h, Bool.not_false,
        Bool.false_eq_true, if_false] at ih ⊢
      rw [ih]
      simp [State.log]
      omega

theorem writeOutput_ok (L : Lib) (sys : Sys) (k : Nat) (filename : Str) (data : List Byte)
    (st : State)
    (hc : sys.create k (outPath st.flags filename) = true)
    (ha : st.flags.pkg = [] → sys.abs k (outPath st.flags filename) ≠ none)
    (hw : ∀ j, sys.writeErr k j = false) (hf : sys.flushErr k = false) :
    writeOutput L sys k filename data st =
      .ok ⟨⟨st.flags.name, outPath st.flags filename, pkgUsed L sys k st.flags filename⟩,
        st.trace ++ fileEvents (outPath st.flags filename) (pkgUsed L sys k st.flags filename)
          (nameUsed L st.flags.name filename) data⟩ := by
  have hv := varname_nameUsed L st.flags.name filename
  obtain ⟨⟨name, out, pkg⟩, trace⟩ := st
  simp only at hc ha hv ⊢
  have hrun := fun (path : Str) (ts : List Str) (s : State) (j : Nat) =>
    runWrites_fileWriter sys k path hw ts s j
  have hfp : ∀ (path t : Str) (s : State) (j : Nat),
      fprint (fileWriter sys k path) (s, j) t
        = .ok (⟨s.flags, s.trace ++ [Event.write path t true]⟩, j + 1) := by
    intro path t s j
    simp [fprint, checkOutputFailure, fileWriter, hw, State.log]
  by_cases ho : out = [] <;> by_cases hp : pkg = []
  · subst ho hp
    simp only [outPath, if_true] at hc ha
    cases habs : sys.abs k (filename ++ ".go".toList) with
    | none => exact absurd habs (ha trivial)
    | some p =>
      simp only [writeOutput, if_true, hc, checkOutputFailure, State.log, Bool.not_true,
        Bool.false_eq_true, if_false, habs, hfp,
        writeData_eq_runWrites L name filename data _ _ _ hv, hrun, hf, Bool.not_false,
        outPath, pkgUsed, Option.getD_some, fileEvents]
      simp
  · subst ho
    simp only [outPath, if_true] at hc ha
    simp only [writeOutput, if_true, hc, checkOutputFailure, State.log, Bool.not_true,
      Bool.false_eq_true, if_false, hp, hfp,
      writeData_eq_runWrites L name filename data _ _ _ hv, hrun, hf, Bool.not_false,
      outPath, pkgUsed, fileEvents]
    simp
  · subst hp
    simp only [outPath, ho, if_false] at hc ha
    cases habs : sys.abs k out with
    | none => exact absurd habs (ha trivial)
    | some p =>
      simp only [writeOutput, ho, if_true, if_false, hc, checkOutputFailure, State.log,
        Bool.not_true, Bool.false_eq_true, habs, hfp,
        writeData_eq_runWrites L name filename data _ _ _ hv, hrun, hf, Bool.not_false,
        outPath, pkgUsed, Option.getD_some, fileEvents]
      simp
  · simp only [outPath, ho, if_false] at hc ha
    simp only [writeOutput, ho, if_false, hc, checkOutputFailure, State.log, Bool.not_true,
      Bool.false_eq_true, hp, hfp,
      writeData_eq_runWrites L name filename data _ _ _ hv, hrun, hf, Bool.not_false,
      outPath, pkgUsed, fileEvents]
    simp

/-! ## Exit codes and traces of the parts of a run -/

theorem runWrites_abort {σ : Type} (w : Writer σ) :
    ∀ (ts : List Str) (s : σ),
      abortOf (runWrites w ts s) = none ∨
        abortOf (runWrites w ts s) = some (Abort.exit OUTPUT_FAIL)
  | [], s => by simp [runWrites, abortOf]
  | t :: ts, s => by
      simp only [runWrites, fprint, checkOutputFailure]
      by_cases h : (w.write s t).2 = true
      · simp [h, abortOf]
      · simp only [h, if_false]
        exact runWrites_abort w ts _

theorem runWrites_fileWriter_trace (sys : Sys) (k : Nat) (path : Str) :
    ∀ (ts : List Str) (st : State) (j : Nat),
      ∃ es, (endState (runWrites (fileWriter sys k path) ts (st, j))).trace = st.trace ++ es ∧
        (endState (runWrites (fileWriter sys k path) ts (st, j))).flags = st.flags
  | [], st, j => ⟨[], by simp [runWrites, endState]⟩
  | t :: ts, st, j => by
      simp only [runWrites, fprint, checkOutputFailure, fileWriter]
      by_cases h : sys.writeErr k j = true
      · exact ⟨[Event.write path t false], by simp [h, endState, State.log]⟩
      · obtain ⟨es, h1, h2⟩ :=
          runWrites_fileWriter_trace sys k path ts (st.log (Event.write path t true)) (j + 1)
        have h' : sys.writeErr k j = false := by simpa using h
        refine ⟨Event.write path t true :: es, ?_⟩
        simp only [h', Bool.false_eq_true, if_false, Bool.not_false]
        simp only [fileWriter] at h1 h2
        rw [h1, h2]
        simp [State.log]

theorem writeOutput_writes (L : Lib) (sys : Sys) (k : Nat) (filename : Str)
    (data : List Byte) (st3 : State) (K : State → Except (Abort × State) State) :
    ((match fprint (fileWriter sys k st3.flags.out) (st3, 0)
        ("package ".toList ++ st3.flags.pkg ++ "\n\n".toList) with
      | .error (a, s, _) => .error (a, s)
      | .ok s4 =>
        match writeData L st3.flags.name filename data (fileWriter sys k st3.flags.out) s4 with
        | .error (a, s, _) => .error (a, s)
        | .ok (st5, _) => K st5) : Except (Abort × State) State)
    = (match runWrites (fileWriter sys k st3.flags.out)
          (("package ".toList ++ st3.flags.pkg ++ "\n\n".toList) ::
            dataWrites (nameUsed L st3.flags.name filename) data) (st3, 0) with
        | .error (a, s, _) => .error (a, s)
        | .ok (st5, _) => K st5) := by
  rw [runWrites]
  cases fprint (fileWriter sys k st3.flags.out) (st3, 0)
      ("package ".toList ++ st3.flags.pkg ++ "\n\n".toList) with
  | error e => rfl
  | ok s4 =>
    simp only [writeData_eq_runWrites L st3.flags.name filename data _ s4 _
      (varname_nameUsed L st3.flags.name filename)]

theorem writeOutput_tail (sys : Sys) (k : Nat) (st st3 : State) (ts : List Str)
    (pre : List Event) (hpre : st3.trace = st.trace ++ pre) :
    let r : Except (Abort × State) State :=
      match runWrites (fileWriter sys k st3.flags.out) ts (st3, 0) with
      | .error (a, s, _) => .error (a, s)
      | .ok (st5, _) =>
        checkOutputFailure (st5.log (Event.flush st5.flags.out (!sys.flushErr k)), sys.flushErr k)
    (abortOf r = none ∨ abortOf r = some (Abort.exit OUTPUT_FAIL)) ∧
      ∃ es, traceOf r = st.trace ++ es := by
  intro r
  have h1 := runWrites_abort (fileWriter sys k st3.flags.out) ts (st3, 0)
  obtain ⟨es, h2, _⟩ := runWrites_fileWriter_trace sys k st3.flags.out ts st3 0
  revert r
  cases hr : runWrites (fileWriter sys k st3.flags.out) ts (st3, 0) with
  | error e =>
    obtain ⟨a, s, j⟩ := e
    rw [hr] at h1 h2
    simp only [abortOf, endState] at h1 h2
    intro r
    refine ⟨Or.inr ?_, pre ++ es, ?_⟩
    · rcases h1 with h | h
      · cases h
      · simpa [abortOf] using h
    · simp [traceOf, h2, hpre]
  | ok v =>
    obtain ⟨st5, j⟩ := v
    rw [hr] at h2
    simp only [endState] at h2
    intro r
    by_cases hf : sys.flushErr k = true
    · refine ⟨Or.inr ?_, pre ++ es ++ [Event.flush st5.flags.out false], ?_⟩
      · simp [r, checkOutputFailure, hf, abortOf]
      · simp [r, checkOutputFailure, hf, traceOf, State.log, h2, hpre]
    · have hf' : sys.flushErr k = false := by simpa using hf
      refine ⟨Or.inl ?_, pre ++ es ++ [Event.flush st5.flags.out true], ?_⟩
      · simp [r, checkOutputFailure, hf', abortOf]
      · simp [r, checkOutputFailure, hf', traceOf, State.log, h2, hpre]

theorem writeOutput_general (L : Lib) (sys : Sys) (k : Nat) (filename : Str)
    (data : List Byte) (st : State) :
    (abortOf (writeOutput L sys k filename data st) = none ∨
        abortOf (writeOutput L sys k filename data st) = some (Abort.exit OUTPUT_FAIL)) ∧
      ∃ es, traceOf (writeOutput L sys k filename data st) = st.trace ++ es := by
  unfold writeOutput
  simp only [writeOutput_writes]
  generalize hst1 : (if st.flags.out = [] then
      ({ st with flags := { st.flags with out := filename ++ ".go".toList } } : State)
    else st) = st1
  have ht1 : st1.trace = st.trace := by
    rw [← hst1]
    split <;> rfl
  by_cases hc : sys.create k st1.flags.out = true
  · simp only [hc, checkOutputFailure, Bool.not_true, Bool.false_eq_true, if_false]
    have hlog : (st1.log (Event.create st1.flags.out true)).flags = st1.flags := rfl
    by_cases hp : st1.flags.pkg = []
    · rw [hlog, if_pos hp]
      cases ha : sys.abs k st1.flags.out with
      | none =>
        refine ⟨Or.inr rfl, [Event.create st1.flags.out true], ?_⟩
        show (st1.log (Event.create st1.flags.out true)).trace = _
        simp [State.log, ht1]
      | some p =>
        simp only []
        exact writeOutput_tail sys k st
          { flags := { name := st1.flags.name, out := st1.flags.out, pkg := base (L.dir p) },
            trace := (st1.log (Event.create st1.flags.out true)).trace }
          _ [Event.create st1.flags.out true] (by simp [State.log, ht1])
    · rw [hlog, if_neg hp]
      exact writeOutput_tail sys k st (st1.log (Event.create st1.flags.out true))
        _ [Event.create st1.flags.out true] (by simp [State.log, ht1])
  · have hc' : sys.create k st1.flags.out = false := by simpa using hc
    simp only [hc', checkOutputFailure, Bool.not_false, if_true]
    refine ⟨Or.inr rfl, [Event.create st1.flags.out false], ?_⟩
    show (st1.log (Event.create st1.flags.out false)).trace = _
    simp [State.log, ht1]

/-! ## The loop of `main` -/

theorem mainLoop_general (L : Lib) (sys : Sys) :
    ∀ (args : List Str) (k : Nat) (st : State),
      (abortOf (mainLoop L sys args k st) = none ∨
        abortOf (mainLoop L sys args k st) = some (Abort.exit INPUT_FAIL) ∨
        abortOf (mainLoop L sys args k st) = some (Abort.exit OUTPUT_FAIL)) ∧
      ∃ es, traceOf (mainLoop L sys args k st) = st.trace ++ es
  | [], k, st => ⟨Or.inl rfl, [], by simp [mainLoop, traceOf]⟩
  | f :: rest, k, st => by
      simp only [mainLoop, readInput]
      cases hr : sys.readFile k f with
      | none => exact ⟨Or.inr (Or.inl rfl), [Event.read f false], rfl⟩
      | some data =>
        simp only []
        obtain ⟨h1, es, h2⟩ := writeOutput_general L sys k f data (st.log (Event.read f true))
        cases hw : writeOutput L sys k f data (st.log (Event.read f true)) with
        | error e =>
          obtain ⟨a, s⟩ := e
          rw [hw] at h1 h2
          simp only [abortOf, traceOf] at h1 h2
          refine ⟨Or.inr (Or.inr ?_), Event.read f true :: es, ?_⟩
          · rcases h1 with h | h
            · cases h
            · simpa [abortOf] using h
          · simp [traceOf, h2, State.log]
        | ok st2 =>
          rw [hw] at h2
          simp only [traceOf] at h2
          obtain ⟨h3, es2, h4⟩ := mainLoop_general L sys rest (k + 1) st2
          refine ⟨h3, Event.read f true :: (es ++ es2), ?_⟩
          simp only []
          rw [h4, h2]
          simp [State.log]

theorem mainLoop_head (L : Lib) (sys : Sys) (f : Str) (rest : List Str) (k : Nat)
    (st : State) :
    ∃ es, traceOf (mainLoop L sys (f :: rest) k st) =
      st.trace ++ Event.read f (sys.readFile k f).isSome :: es := by
  simp only [mainLoop, readInput]
  cases hr : sys.readFile k f with
  | none => exact ⟨[], rfl⟩
  | some data =>
    simp only []
    obtain ⟨_, es, h2⟩ := writeOutput_general L sys k f data (st.log (Event.read f true))
    cases hw : writeOutput L sys k f data (st.log (Event.read f true)) with
    | error e =>
      obtain ⟨a, s⟩ := e
      rw [hw] at h2
      simp only [traceOf] at h2
      exact ⟨es, by simp [traceOf, h2, State.log]⟩
    | ok st2 =>
      rw [hw] at h2
      simp only [traceOf] at h2
      obtain ⟨_, es2, h4⟩ := mainLoop_general L sys rest (k + 1) st2
      refine ⟨es ++ es2, ?_⟩
      simp only []
      rw [h4, h2]
      simp [State.log]

theorem mainLoop_append (L : Lib) (sys : Sys) :
    ∀ (xs ys : List Str) (k : Nat) (st : State),
      mainLoop L sys (xs ++ ys) k st =
        match mainLoop L sys xs k st with
        | .error e => .error e
        | .ok st1 => mainLoop L sys ys (k + xs.length) st1
  | [], ys, k, st => by simp [mainLoop]
  | x :: xs, ys, k, st => by
      simp only [List.cons_append, mainLoop]
      cases readInput sys k x st with
      | error e => rfl
      | ok v =>
        obtain ⟨data, st1⟩ := v
        simp only []
        cases writeOutput L sys k x data st1 with
        | error e => rfl
        | ok st2 =>
          have ih := mainLoop_append L sys xs ys (k + 1) st2
          have e : k + 1 + xs.length = k + (xs.length + 1) := by omega
          rw [e] at ih
          simpa using ih

/-! ## Reading traces -/

theorem readsOf_append : ∀ (a b : List Event), readsOf (a ++ b) = readsOf a ++ readsOf b
  | [], b => rfl
  | e :: a, b => by
      cases e <;> simp [readsOf, readsOf_append a b]

theorem createsOf_append : ∀ (a b : List Event), createsOf (a ++ b) = createsOf a ++ createsOf b
  | [], b => rfl
  | e :: a, b => by
      cases e <;> simp [createsOf, createsOf_append a b]

theorem flushCount_append : ∀ (a b : List Event), flushCount (a ++ b) = flushCount a + flushCount b
  | [], b => by simp [flushCount]
  | e :: a, b => by
      have ih := flushCount_append a b
      cases e with
      | flush p ok =>
        cases ok
        · simp [flushCount, ih]
        · simp [flushCount, ih]
          omega
      | _ => simp [flushCount, ih]

theorem writtenFrom_append (path : Str) :
    ∀ (a b : List Event) (cur : Option Str),
      writtenFrom path (a ++ b) cur = writtenFrom path b (writtenFrom path a cur)
  | [], b, cur => rfl
  | e :: a, b, cur => by
      cases e with
      | create p ok =>
        simp only [List.cons_append, writtenFrom]
        split <;> exact writtenFrom_append path a b _
      | write p t ok =>
        simp only [List.cons_append, writtenFrom]
        split <;> exact writtenFrom_append path a b _
      | usage => exact writtenFrom_append path a b cur
      | read p ok => exact writtenFrom_append path a b cur
      | flush p ok => exact writtenFrom_append path a b cur

theorem readsOf_writes (path : Str) :
    ∀ ts : List Str, readsOf (ts.map (fun t => Event.write path t true)) = []
  | [] => rfl
  | t :: ts => by simp [readsOf, readsOf_writes path ts]

theorem createsOf_writes (path : Str) :
    ∀ ts : List Str, createsOf (ts.map (fun t => Event.write path t true)) = []
  | [] => rfl
  | t :: ts => by simp [createsOf, createsOf_writes path ts]

theorem flushCount_writes (path : Str) :
    ∀ ts : List Str, flushCount (ts.map (fun t => Event.write path t true)) = 0
  | [] => rfl
  | t :: ts => by simp [flushCount, flushCount_writes path ts]

theorem written_writes (path : Str) :
    ∀ (ts : List Str) (t0 : Str),
      writtenFrom path (ts.map (fun t => Event.write path t true)) (some t0)
        = some (t0 ++ ts.flatten)
  | [], t0 => by simp [writtenFrom]
  | t :: ts, t0 => by
      simp [writtenFrom, written_writes path ts (t0 ++ t)]

theorem fileEvents_eq (path pkg v : Str) (data : List Byte) :
    fileEvents path pkg v data =
      [Event.create path true] ++
        ((("package ".toList ++ pkg ++ "\n\n".toList) :: dataWrites v data).map
          (fun t => Event.write path t true)) ++ [Event.flush path true] := rfl

theorem readsOf_fileEvents (path pkg v : Str) (data : List Byte) :
    readsOf (fileEvents path pkg v data) = [] := by
  rw [fileEvents_eq, readsOf_append, readsOf_append, readsOf_writes]
  rfl

theorem createsOf_fileEvents (path pkg v : Str) (data : List Byte) :
    createsOf (fileEvents path pkg v data) = [path] := by
  rw [fileEvents_eq, createsOf_append, createsOf_append, createsOf_writes]
  rfl

theorem flushCount_fileEvents (path pkg v : Str) (data : List Byte) :
    flushCount (fileEvents path pkg v data) = 1 := by
  rw [fileEvents_eq, flushCount_append, flushCount_append, flushCount_writes]
  rfl

theorem dataWrites_flatten (v : Str) (data : List Byte) :
    (dataWrites v data).flatten =
      "var ".toList ++ v ++ " = [...]byte\x7b".toList ++ "\n\t".toList ++ wrappedBody data ++
          "\n\x7d\n".toList := by
  rw [← body_eq_wrappedBody]
  simp [dataWrites, header, body]

theorem written_fileEvents (path pkg v : Str) (data : List Byte) (cur : Option Str) :
    writtenFrom path (fileEvents path pkg v data) cur =
      some ("package ".toList ++ pkg ++ "\n\n".toList ++
        ("var ".toList ++ v ++ " = [...]byte\x7b".toList ++ "\n\t".toList ++ wrappedBody data ++
          "\n\x7d\n".toList)) := by
  rw [fileEvents_eq, writtenFrom_append, writtenFrom_append]
  have h1 : writtenFrom path [Event.create path true] cur = some [] := by simp [writtenFrom]
  rw [h1, written_writes, List.flatten_cons, dataWrites_flatten]
  simp [writtenFrom]

/-! ## Runs in which nothing fails -/

theorem mainLoop_ok (L : Lib) (sys : Sys) :
    ∀ (args : List Str) (k : Nat) (st : State),
      (∀ i f, args[i]? = some f → (sys.readFile (k + i) f).isSome = true) →
      (∀ i, i < args.length → OutputOk sys (k + i)) →
      ∃ st1, mainLoop L sys args k st = .ok st1 ∧
        readsOf st1.trace = readsOf st.trace ++ args.map (fun f => (f, true)) ∧
        (createsOf st1.trace).length = (createsOf st.trace).length + args.length ∧
        flushCount st1.trace = flushCount st.trace + args.length
  | [], k, st, _, _ => ⟨st, by simp [mainLoop]⟩
  | f :: rest, k, st, hr, ho => by
      have hr0 := hr 0 f (by simp)
      obtain ⟨hc, ha, hw, hf⟩ := ho 0 (by simp)
      simp only [Nat.add_zero] at hr0 hc ha hw hf
      obtain ⟨data, hdata⟩ := Option.isSome_iff_exists.1 hr0
      have hwo := writeOutput_ok L sys k f data (st.log (Event.read f true)) (hc _)
        (fun _ => ha _) hw hf
      obtain ⟨st1, h1, h2, h3, h4⟩ := mainLoop_ok L sys rest (k + 1)
        ⟨⟨(st.log (Event.read f true)).flags.name,
            outPath (st.log (Event.read f true)).flags f,
            pkgUsed L sys k (st.log (Event.read f true)).flags f⟩,
          (st.log (Event.read f true)).trace ++
            fileEvents (outPath (st.log (Event.read f true)).flags f)
              (pkgUsed L sys k (st.log (Event.read f true)).flags f)
              (nameUsed L (st.log (Event.read f true)).flags.name f) data⟩
        (fun i g hg => by
          have := hr (i + 1) g (by simpa using hg)
          rwa [show k + (i + 1) = k + 1 + i by omega] at this)
        (fun i hi => by
          have := ho (i + 1) (by simpa using hi)
          rwa [show k + (i + 1) = k + 1 + i by omega] at this)
      refine ⟨st1, ?_, ?_, ?_, ?_⟩
      · simp only [mainLoop, readInput, hdata, hwo, h1]
      · rw [h2]
        simp only [State.log]
        rw [readsOf_append, readsOf_append, readsOf_fileEvents]
        simp [readsOf]
      · rw [h3]
        simp only [State.log]
        rw [createsOf_append, createsOf_append, createsOf_fileEvents]
        simp only [createsOf, List.length_append, List.length_cons, List.length_nil]
        omega
      · rw [h4]
        simp only [State.log]
        rw [flushCount_append, flushCount_append, flushCount_fileEvents]
        simp only [flushCount, List.length_cons]
        omega

/-- C3 (amended). When nothing fails on the output side, the complete text
written to the output file is exactly `package p`, two line breaks,
`var v = [...]byte{`, a line break and a tab, the body, and the closing line,
where `p` is the package name and `v` the variable name in use. For the input
file `a.bin` holding `00 ff 10` with no overrides the declaration part is
exactly `var ABin = [...]byte{`, the body line `0x00, 0xff, 0x10,` and the
closing line. -/
theorem C3_output_text (L : Lib) (sys : Sys) (k : Nat) (filename : Str) (data : List Byte)
    (st : State)
    (hc : sys.create k (outPath st.flags filename) = true)
    (ha : st.flags.pkg = [] → sys.abs k (outPath st.flags filename) ≠ none)
    (hw : ∀ j, sys.writeErr k j = false) (hf : sys.flushErr k = false) :
    (∃ st1, writeOutput L sys k filename data st = .ok st1 ∧
        st1.flags.out = outPath st.flags filename ∧
        st1.flags.pkg = pkgUsed L sys k st.flags filename ∧
        fileText st1.trace st1.flags.out =
          some ("package ".toList ++ st1.flags.pkg ++ "\n\n".toList ++
            ("var ".toList ++ nameUsed L st.flags.name filename ++ " = [...]byte\x7b".toList ++
              "\n\t".toList ++ wrappedBody data ++ "\n\x7d\n".toList))) ∧
      (AsciiFaithful L →
        emitted L [] "a.bin".toList [0, 255, 16] =
          .ok "var ABin = [...]byte\x7b\n\t0x00, 0xff, 0x10,\n\x7d\n".toList) := by
  refine ⟨⟨_, writeOutput_ok L sys k filename data st hc ha hw hf, rfl, rfl, ?_⟩, fun h => ?_⟩
  · simp only [fileText]
    rw [writtenFrom_append, written_fileEvents]
  · have h1 : emitted (asciiPatch L) [] "a.bin".toList [0, 255, 16] =
        .ok "var ABin = [...]byte\x7b\n\t0x00, 0xff, 0x10,\n\x7d\n".toList := rfl
    rwa [asciiPatch_eq L h] at h1

/-- C3, witness: the output for `a.bin` with no flag given. -/
theorem C3_output_text_witness :
    (sysWith [("a.bin".toList, [0, 255, 16])]).create 0
        (outPath noFlags "a.bin".toList) = true ∧
      (∃ st1, writeOutput asciiLib (sysWith [("a.bin".toList, [0, 255, 16])]) 0
          "a.bin".toList [0, 255, 16] ⟨noFlags, []⟩ = .ok st1 ∧
        st1.flags.out = outPath noFlags "a.bin".toList ∧
        st1.flags.pkg = pkgUsed asciiLib (sysWith [("a.bin".toList, [0, 255, 16])]) 0
          noFlags "a.bin".toList ∧
        fileText st1.trace st1.flags.out =
          some ("package ".toList ++ st1.flags.pkg ++ "\n\n".toList ++
            ("var ".toList ++ nameUsed asciiLib noFlags.name "a.bin".toList ++
              " = [...]byte\x7b".toList ++
              "\n\t".toList ++ wrappedBody [0, 255, 16] ++ "\n\x7d\n".toList))) :=
  ⟨rfl, (C3_output_text asciiLib (sysWith [("a.bin".toList, [0, 255, 16])]) 0
    "a.bin".toList [0, 255, 16] ⟨noFlags, []⟩ rfl (fun _ => by decide) (fun _ => rfl) rfl).1⟩

/-- C3, counterexample: for `a.bin` holding `00 ff 10` with no overrides the
run succeeds and the output `a.bin.go` holds the declaration of `ABin`, not
of `A`. -/
theorem C3_counterexample :
    exitCode (main asciiLib (sysWith [("a.bin".toList, [0, 255, 16])]) noFlags
        ["a.bin".toList]) = some 0 ∧
      fileText (traceOf (main asciiLib (sysWith [("a.bin".toList, [0, 255, 16])]) noFlags
        ["a.bin".toList])) "a.bin.go".toList =
        some "package proj\n\nvar ABin = [...]byte\x7b\n\t0x00, 0xff, 0x10,\n\x7d\n".toList ∧
      fileText (traceOf (main asciiLib (sysWith [("a.bin".toList, [0, 255, 16])]) noFlags
        ["a.bin".toList])) "a.bin.go".toList ≠
        some "package proj\n\nvar A = [...]byte\x7b\n\t0x00, 0xff, 0x10,\n\x7d\n".toList ∧
      emitted asciiLib [] "a.bin".toList [0, 255, 16] ≠
        .ok "var A = [...]byte\x7b\n\t0x00, 0xff, 0x10,\n\x7d\n".toList := by
  decide

theorem main_rejected (L : Lib) (sys : Sys) (flags : Flags) (args : List Str)
    (h : Rejected flags args) :
    main L sys flags args = .error (Abort.exit WRONG_ARGS, ⟨flags, [Event.usage]⟩) := by
  have h1 : args.length = 0 ∨ (args.length > 1 ∧ (flags.out ≠ [] ∨ flags.name ≠ [])) := by
    rcases h with h | ⟨h2, h3⟩
    · exact Or.inl (by simp [h])
    · exact Or.inr ⟨h2, h3.symm⟩
  simp only [main, h1, if_true, printUsageAndExit, State.log, List.nil_append]

theorem main_accepted (L : Lib) (sys : Sys) (flags : Flags) (args : List Str)
    (h : ¬ Rejected flags args) :
    main L sys flags args = mainLoop L sys args 0 ⟨flags, []⟩ := by
  have h1 : ¬ (args.length = 0 ∨ (args.length > 1 ∧ (flags.out ≠ [] ∨ flags.name ≠ []))) := by
    intro h2
    apply h
    rcases h2 with h2 | ⟨h2, h3⟩
    · exact Or.inl (List.eq_nil_of_length_eq_zero h2)
    · exact Or.inr ⟨h2, h3.symm⟩
  simp only [main, h1, if_false]

theorem exitCode_mainLoop (L : Lib) (sys : Sys) (args : List Str) (k : Nat) (st : State) :
    exitCode (mainLoop L sys args k st) ≠ some WRONG_ARGS := by
  have h := (mainLoop_general L sys args k st).1
  cases hr : mainLoop L sys args k st with
  | ok st1 => simp [exitCode, NO_ERROR, WRONG_ARGS]
  | error e =>
    obtain ⟨a, s⟩ := e
    rw [hr] at h
    simp only [abortOf] at h
    rcases h with h | h | h
    · cases h
    · have : a = Abort.exit INPUT_FAIL := by simpa using h
      subst this
      simp [exitCode, INPUT_FAIL, WRONG_ARGS]
    · have : a = Abort.exit OUTPUT_FAIL := by simpa using h
      subst this
      simp [exitCode, OUTPUT_FAIL, WRONG_ARGS]

/-- C8. Argument validation: the run ends with the wrong-arguments exit code 1
if and only if the input list is empty, or it has more than one input while
`-name` or `-out` is non-empty. A rejected run prints the usage and does
nothing else: it reads no input and creates no output. A run that is not
rejected starts processing the inputs: its first event is the read of the
first input, and when nothing fails it reads every input in order and ends
with exit code 0. Zero inputs, and two inputs with `-name=foo`, are rejected. -/
theorem C8_argument_validation (L : Lib) (sys : Sys) (flags : Flags) (args : List Str) :
    (exitCode (main L sys flags args) = some WRONG_ARGS ↔ Rejected flags args) ∧
      (Rejected flags args →
        traceOf (main L sys flags args) = [Event.usage] ∧
        readsOf (traceOf (main L sys flags args)) = [] ∧
        createsOf (traceOf (main L sys flags args)) = []) ∧
      (¬ Rejected flags args →
        ∃ f rest es, args = f :: rest ∧
          traceOf (main L sys flags args) = Event.read f (sys.readFile 0 f).isSome :: es) ∧
      (¬ Rejected flags args →
        (∀ i f, args[i]? = some f → (sys.readFile i f).isSome = true) →
        (∀ i, i < args.length → OutputOk sys i) →
        exitCode (main L sys flags args) = some NO_ERROR ∧
        readsOf (traceOf (main L sys flags args)) = args.map (fun f => (f, true))) ∧
      exitCode (main L sys flags []) = some 1 ∧
      (∀ a b : Str,
        exitCode (main L sys ⟨"foo".toList, flags.out, flags.pkg⟩ [a, b]) = some 1) := by
  refine ⟨⟨fun h => ?_, fun h => ?_⟩, fun h => ?_, fun h => ?_, fun h hr ho => ?_, ?_, ?_⟩
  · by_contra hn
    rw [main_accepted L sys flags args hn] at h
    exact exitCode_mainLoop L sys args 0 _ h
  · rw [main_rejected L sys flags args h]
    rfl
  · rw [main_rejected L sys flags args h]
    exact ⟨rfl, rfl, rfl⟩
  · rw [main_accepted L sys flags args h]
    cases args with
    | nil => exact absurd (Or.inl rfl) h
    | cons f rest =>
      obtain ⟨es, hes⟩ := mainLoop_head L sys f rest 0 ⟨flags, []⟩
      exact ⟨f, rest, es, rfl, by simpa using hes⟩
  · rw [main_accepted L sys flags args h]
    obtain ⟨st1, h1, h2, _, _⟩ := mainLoop_ok L sys args 0 ⟨flags, []⟩
      (fun i f hf => by simpa using hr i f hf) (fun i hi => by simpa using ho i hi)
    rw [h1]
    exact ⟨rfl, by simpa [traceOf, readsOf] using h2⟩
  · rw [main_rejected L sys flags [] (Or.inl rfl)]
    rfl
  · intro a b
    rw [main_rejected L sys _ [a, b] (Or.inr ⟨by simp, Or.inl (by simp)⟩)]
    rfl

/-- C8, witness: the single input `a.bin` with no flag is accepted, read, and
the run ends with exit code 0. -/
theorem C8_argument_validation_witness :
    ¬ Rejected noFlags ["a.bin".toList] ∧
      exitCode (main asciiLib (sysWith [("a.bin".toList, [0, 255, 16])]) noFlags
        ["a.bin".toList]) = some NO_ERROR ∧
      readsOf (traceOf (main asciiLib (sysWith [("a.bin".toList, [0, 255, 16])]) noFlags
        ["a.bin".toList])) = ["a.bin".toList].map (fun f => (f, true)) :=
  ⟨by decide,
    (C8_argument_validation asciiLib (sysWith [("a.bin".toList, [0, 255, 16])]) noFlags
      ["a.bin".toList]).2.2.2.1 (by decide)
      (fun i f h => by
        cases i with
        | zero =>
          have : f = "a.bin".toList := by simpa using h.symm
          subst this
          rfl
        | succ j => simp at h)
      (fun i _ => ⟨fun _ => rfl, fun _ => by simp [sysWith], fun _ => rfl, rfl⟩)⟩

/-- C9, the run on two inputs: with the inputs `a.bin` and `b.bin` and no flag,
both outputs are created at `a.bin.go`; after the run `a.bin.go` holds the
declaration of `b.bin`, and `b.bin.go` has not been created. -/
theorem C9_two_inputs_one_output :
    exitCode (main asciiLib
        (sysWith [("a.bin".toList, [0, 255, 16]), ("b.bin".toList, [1, 2])]) noFlags
        ["a.bin".toList, "b.bin".toList]) = some 0 ∧
      createsOf (traceOf (main asciiLib
        (sysWith [("a.bin".toList, [0, 255, 16]), ("b.bin".toList, [1, 2])]) noFlags
        ["a.bin".toList, "b.bin".toList])) = ["a.bin.go".toList, "a.bin.go".toList] ∧
      fileText (traceOf (main asciiLib
        (sysWith [("a.bin".toList, [0, 255, 16]), ("b.bin".toList, [1, 2])]) noFlags
        ["a.bin".toList, "b.bin".toList])) "a.bin.go".toList =
        some "package proj\n\nvar BBin = [...]byte\x7b\n\t0x01, 0x02,\n\x7d\n".toList ∧
      fileText (traceOf (main asciiLib
        (sysWith [("a.bin".toList, [0, 255, 16]), ("b.bin".toList, [1, 2])]) noFlags
        ["a.bin".toList, "b.bin".toList])) "b.bin.go".toList = none := by
  decide

/-- C10 (amended). Read failure is fail-stop: for every accepted list of inputs
in which input `k` is the first one whose read fails, and nothing fails on the
output side while the inputs before `k` are processed, the run ends with exit
code 2; the inputs before `k` have been read and written in order (the loop
over them runs to its end, with one create and one flush per input); and the
failed read of input `k` is the last event of the run, so nothing is created
or written for input `k` or for any input after it. -/
theorem C10_read_failure (L : Lib) (sys : Sys) (flags : Flags) (args : List Str)
    (k : Nat) (fk : Str)
    (hacc : ¬ Rejected flags args)
    (hk : args[k]? = some fk) (hfail : sys.readFile k fk = none)
    (hread : ∀ i f, i < k → args[i]? = some f → (sys.readFile i f).isSome = true)
    (hout : ∀ i, i < k → OutputOk sys i) :
    ∃ stk, mainLoop L sys (args.take k) 0 ⟨flags, []⟩ = .ok stk ∧
      main L sys flags args = .error (Abort.exit INPUT_FAIL, stk.log (Event.read fk false)) ∧
      exitCode (main L sys flags args) = some 2 ∧
      traceOf (main L sys flags args) = stk.trace ++ [Event.read fk false] ∧
      readsOf (traceOf (main L sys flags args)) =
        (args.take k).map (fun f => (f, true)) ++ [(fk, false)] ∧
      (createsOf (traceOf (main L sys flags args))).length = k ∧
      flushCount (traceOf (main L sys flags args)) = k ∧
      (k = 0 → createsOf (traceOf (main L sys flags args)) = []) := by
  obtain ⟨hlt, hget⟩ := List.getElem?_eq_some.1 hk
  have hsplit : args = args.take k ++ fk :: args.drop (k + 1) := by
    rw [← hget, ← List.drop_eq_getElem_cons hlt, List.take_append_drop]
  have hlen : (args.take k).length = k := by
    rw [List.length_take]
    omega
  obtain ⟨stk, h1, h2, h3, h4⟩ := mainLoop_ok L sys (args.take k) 0 ⟨flags, []⟩
    (fun i f hf => by
      have hi : i < k := by
        have := (List.getElem?_eq_some.1 hf).1
        omega
      rw [List.getElem?_take_of_lt hi] at hf
      simpa using hread i f hi hf)
    (fun i hi => by simpa using hout i (by omega))
  have hmain : main L sys flags args =
      .error (Abort.exit INPUT_FAIL, stk.log (Event.read fk false)) := by
    rw [main_accepted L sys flags args hacc, hsplit, mainLoop_append, h1]
    simp only [hlen, Nat.zero_add, mainLoop, readInput, hfail]
  refine ⟨stk, h1, hmain, ?_, ?_, ?_, ?_, ?_, ?_⟩
  · rw [hmain]
    rfl
  · rw [hmain]
    rfl
  · rw [hmain]
    simp only [traceOf, State.log]
    rw [readsOf_append, h2]
    simp [readsOf]
  · rw [hmain]
    simp only [traceOf, State.log]
    rw [createsOf_append, List.length_append, h3]
    simp [createsOf, hlen]
  · rw [hmain]
    simp only [traceOf, State.log]
    rw [flushCount_append, h4]
    simp [flushCount, hlen]
  · intro hk0
    rw [hmain]
    simp only [traceOf, State.log]
    have hz : (createsOf stk.trace).length = 0 := by
      rw [h3]
      simp [createsOf, hlen, hk0]
    rw [createsOf_append, List.eq_nil_of_length_eq_zero hz]
    rfl

/-- C10, witness: with the inputs `a.bin` and `b.bin`, of which only `a.bin`
can be read, the run ends with exit code 2 after the failed read of `b.bin`. -/
theorem C10_read_failure_witness :
    ¬ Rejected noFlags ["a.bin".toList, "b.bin".toList] ∧
      (sysWith [("a.bin".toList, [0, 255, 16])]).readFile 1 "b.bin".toList = none ∧
      ∃ stk, mainLoop asciiLib (sysWith [("a.bin".toList, [0, 255, 16])])
          (["a.bin".toList, "b.bin".toList].take 1) 0 ⟨noFlags, []⟩ = .ok stk ∧
        main asciiLib (sysWith [("a.bin".toList, [0, 255, 16])]) noFlags
            ["a.bin".toList, "b.bin".toList] =
          .error (Abort.exit INPUT_FAIL, stk.log (Event.read "b.bin".toList false)) :=
  ⟨by decide, rfl,
    let ⟨stk, h1, h2, _⟩ := C10_read_failure asciiLib (sysWith [("a.bin".toList, [0, 255, 16])])
      noFlags ["a.bin".toList, "b.bin".toList] 1 "b.bin".toList (by decide) rfl rfl
      (fun i f hi hf => by
        have h0 : i = 0 := by omega
        subst h0
        have : f = "a.bin".toList := by simpa using hf.symm
        subst this
        rfl)
      (fun i _ => ⟨fun _ => rfl, fun _ => by simp [sysWith], fun _ => rfl, rfl⟩)
    ⟨stk, h1, h2⟩⟩

/-- C10, counterexample: the inputs `a.bin` and `b.bin` are accepted, `a.bin`
can be read and `b.bin` is the first input that cannot, but no file can be
created: the run ends with exit code 3 at the output of `a.bin`, not with
exit code 2, and `b.bin` is never read. -/
theorem C10_counterexample :
    ¬ Rejected noFlags ["a.bin".toList, "b.bin".toList] ∧
      (sysNoCreate [("a.bin".toList, [0, 255, 16])]).readFile 0 "a.bin".toList
        = some [0, 255, 16] ∧
      (sysNoCreate [("a.bin".toList, [0, 255, 16])]).readFile 1 "b.bin".toList = none ∧
      exitCode (main asciiLib (sysNoCreate [("a.bin".toList, [0, 255, 16])]) noFlags
        ["a.bin".toList, "b.bin".toList]) = some 3 ∧
      exitCode (main asciiLib (sysNoCreate [("a.bin".toList, [0, 255, 16])]) noFlags
        ["a.bin".toList, "b.bin".toList]) ≠ some 2 ∧
      traceOf (main asciiLib (sysNoCreate [("a.bin".toList, [0, 255, 16])]) noFlags
        ["a.bin".toList, "b.bin".toList]) =
        [Event.read "a.bin".toList true, Event.create "a.bin.go".toList false] := by
  decide

/-! ## Failing writes -/

theorem runWrites_fail {σ : Type} (w : Writer σ) :
    ∀ (ts : List Str) (s : σ) (k : Nat), k < ts.length →
      (∀ j, j < k → errAt w s ts j = false) → errAt w s ts k = true →
      runWrites w ts s = .error (Abort.exit OUTPUT_FAIL, stateAfter w s (ts.take (k + 1)))
  | [], _, _, hk, _, _ => by simp at hk
  | t :: ts, s, 0, _, _, he => by
      simp only [errAt] at he
      simp [runWrites, fprint, checkOutputFailure, he, stateAfter]
  | t :: ts, s, k + 1, hk, hj, he => by
      have h0 : (w.write s t).2 = false := by simpa [errAt] using hj 0 (by omega)
      have ih := runWrites_fail w ts (w.write s t).1 k (by simpa using hk)
        (fun j hjk => by simpa [errAt] using hj (j + 1) (by omega))
        (by simpa [errAt] using he)
      simp only [runWrites, fprint, checkOutputFailure, h0, Bool.false_eq_true, if_false, ih,
        List.take_succ_cons, stateAfter]

theorem runWrites_ok {σ : Type} (w : Writer σ) :
    ∀ (ts : List Str) (s : σ), (∀ j, j < ts.length → errAt w s ts j = false) →
      runWrites w ts s = .ok (stateAfter w s ts)
  | [], s, _ => rfl
  | t :: ts, s, hj => by
      have h0 : (w.write s t).2 = false := by simpa [errAt] using hj 0 (by simp)
      have ih := runWrites_ok w ts (w.write s t).1
        (fun j hjk => by simpa [errAt] using hj (j + 1) (by simpa using hjk))
      simp only [runWrites, fprint, checkOutputFailure, h0, Bool.false_eq_true, if_false, ih,
        stateAfter]

theorem stateAfter_logWriter (fails : Nat → Bool) :
    ∀ (ts log : List Str), stateAfter (logWriter fails) log ts = log ++ ts
  | [], log => by simp [stateAfter]
  | t :: ts, log => by
      have ih := stateAfter_logWriter fails ts (log ++ [t])
      simp only [stateAfter, logWriter] at ih ⊢
      rw [ih]
      simp

theorem errAt_logWriter (fails : Nat → Bool) :
    ∀ (ts log : List Str) (k : Nat), k < ts.length →
      errAt (logWriter fails) log ts k = fails (log.length + k)
  | [], _, _, hk => by simp at hk
  | t :: ts, log, 0, _ => by simp [errAt, logWriter]
  | t :: ts, log, k + 1, hk => by
      have ih := errAt_logWriter fails ts (log ++ [t]) k (by simpa using hk)
      simp only [errAt, logWriter] at ih ⊢
      rw [ih]
      simp only [List.length_append, List.length_singleton]
      congr 1
      omega

/-- C11. Write failure aborts immediately: for every writer and every byte
sequence, if write number `k` of the writes that `writeData` issues is the
first to return an error, `writeData` ends the run with exit code 3 with the
writer in the state that write left it in, so no further write is issued; if
no write fails, `writeData` issues all of its writes and returns. On a writer
that records its writes, the record is the first `k + 1` writes in the first
case and all the writes in the second. The exit codes for success, wrong
arguments, input failure and output failure are the pairwise distinct values
0, 1, 2 and 3. -/
theorem C11_write_failure {σ : Type} (L : Lib) (name filename : Str) (data : List Byte)
    (w : Writer σ) (s : σ) :
    (∀ k, k < (dataWrites (nameUsed L name filename) data).length →
        (∀ j, j < k → errAt w s (dataWrites (nameUsed L name filename) data) j = false) →
        errAt w s (dataWrites (nameUsed L name filename) data) k = true →
        writeData L name filename data w s =
          .error (Abort.exit 3,
            stateAfter w s ((dataWrites (nameUsed L name filename) data).take (k + 1)))) ∧
      ((∀ j, j < (dataWrites (nameUsed L name filename) data).length →
          errAt w s (dataWrites (nameUsed L name filename) data) j = false) →
        writeData L name filename data w s =
          .ok (stateAfter w s (dataWrites (nameUsed L name filename) data))) ∧
      (∀ (fails : Nat → Bool) (k : Nat),
        k < (dataWrites (nameUsed L name filename) data).length →
        (∀ j, j < k → fails j = false) → fails k = true →
        writeData L name filename data (logWriter fails) [] =
          .error (Abort.exit 3, (dataWrites (nameUsed L name filename) data).take (k + 1))) ∧
      (∀ fails : Nat → Bool,
        (∀ j, j < (dataWrites (nameUsed L name filename) data).length → fails j = false) →
        writeData L name filename data (logWriter fails) [] =
          .ok (dataWrites (nameUsed L name filename) data)) ∧
      (NO_ERROR = 0 ∧ WRONG_ARGS = 1 ∧ INPUT_FAIL = 2 ∧ OUTPUT_FAIL = 3) ∧
      [NO_ERROR, WRONG_ARGS, INPUT_FAIL, OUTPUT_FAIL].Nodup := by
  have hv := varname_nameUsed L name filename
  have hlog : ∀ (fails : Nat → Bool) (j : Nat),
      j < (dataWrites (nameUsed L name filename) data).length →
      errAt (logWriter fails) [] (dataWrites (nameUsed L name filename) data) j = fails j := by
    intro fails j hj
    rw [errAt_logWriter fails _ [] j hj]
    simp
  refine ⟨fun k hk hj he => ?_, fun hj => ?_, fun fails k hk hj he => ?_, fun fails hj => ?_,
    ⟨rfl, rfl, rfl, rfl⟩, by decide⟩
  · rw [writeData_eq_runWrites L name filename data w s _ hv]
    exact runWrites_fail w _ s k hk hj he
  · rw [writeData_eq_runWrites L name filename data w s _ hv]
    exact runWrites_ok w _ s hj
  · rw [writeData_eq_runWrites L name filename data _ [] _ hv,
      runWrites_fail (logWriter fails) _ [] k hk
        (fun j hjk => by rw [hlog fails j (by omega)]; exact hj j hjk)
        (by rw [hlog fails k hk]; exact he),
      stateAfter_logWriter]
    rfl
  · rw [writeData_eq_runWrites L name filename data _ [] _ hv,
      runWrites_ok (logWriter fails) _ []
        (fun j hjk => by rw [hlog fails j hjk]; exact hj j hjk),
      stateAfter_logWriter]
    rfl

/-- C11, witness: for the bytes `00 ff 10` of `a.bin`, on a writer whose write
number 2 fails, `writeData` ends the run with exit code 3 after the header,
the first literal and the space that follows it. -/
theorem C11_write_failure_witness :
    2 < (dataWrites (nameUsed asciiLib [] "a.bin".toList) [0, 255, 16]).length ∧
      writeData asciiLib [] "a.bin".toList [0, 255, 16] (logWriter (fun j => j == 2)) [] =
        .error (Abort.exit 3,
          ["var ABin = [...]byte\x7b\n\t".toList, "0x00,".toList, " ".toList]) :=
  ⟨by decide,
    (C11_write_failure asciiLib [] "a.bin".toList [0, 255, 16] (logWriter (fun j => j == 2))
      []).2.2.1 (fun j => j == 2) 2 (by decide)
      (fun j hj => by
        have h : j = 0 ∨ j = 1 := by omega
        rcases h with h | h <;> subst h <;> rfl)
      rfl⟩

/-! ## The characters of the derived name -/

theorem fieldsLoop_flatten (f : Char → Bool) :
    ∀ (t : Str),
      (∀ acc, (fieldsLoop f t none acc).flatten
          = acc.reverse.flatten ++ t.filter (fun c => !f c)) ∧
      (∀ w acc, (fieldsLoop f t (some w) acc).flatten
          = acc.reverse.flatten ++ (w.reverse ++ t.filter (fun c => !f c)))
  | [] => by
      refine ⟨fun acc => by simp [fieldsLoop], fun w acc => by simp [fieldsLoop]⟩
  | c :: cs => by
      obtain ⟨ih1, ih2⟩ := fieldsLoop_flatten f cs
      refine ⟨fun acc => ?_, fun w acc => ?_⟩
      · by_cases hc : f c = true
        · simp [fieldsLoop, hc, ih1]
        · simp [fieldsLoop, hc, ih2]
      · by_cases hc : f c = true
        · simp [fieldsLoop, hc, ih1]
        · simp [fieldsLoop, hc, ih2]

theorem fieldsOf_flatten (f : Char → Bool) (t : Str) :
    (fieldsOf f t).flatten = t.filter (fun c => !f c) := by
  rw [← fieldsFunc_eq]
  simpa [fieldsFunc] using (fieldsLoop_flatten f t).1 []

theorem maximalRuns_flatten (L : Lib) (t : Str) :
    (maximalRuns L t).flatten = t.filter (isLetterOrDigit L) := by
  rw [maximalRuns, fieldsOf_flatten]
  congr 1
  funext c
  simp

theorem upperFirst_length (L : Lib) (p : Str) : (upperFirst L p).length = p.length := by
  cases p <;> rfl

theorem upperFirst_flatten_length (L : Lib) :
    ∀ ps : List Str, ((ps.map (upperFirst L)).flatten).length = ps.flatten.length
  | [] => rfl
  | p :: ps => by
      simp [upperFirst_length, upperFirst_flatten_length L ps]

theorem mem_upperFirst (L : Lib) (p : Str) (c : Char) (h : c ∈ upperFirst L p) :
    ∃ d ∈ p, c = d ∨ c = L.toUpper d := by
  cases p with
  | nil => simp [upperFirst] at h
  | cons a r =>
    simp only [upperFirst, List.mem_cons] at h
    rcases h with h | h
    · exact ⟨a, by simp, Or.inr h⟩
    · exact ⟨c, by simp [h], Or.inl rfl⟩

theorem upperFirst_flatten_head (L : Lib) :
    ∀ ps : List Str, (∀ p ∈ ps, p ≠ []) →
      ((ps.map (upperFirst L)).flatten).head? = ps.flatten.head?.map L.toUpper
  | [], _ => rfl
  | p :: ps, h => by
      cases p with
      | nil => exact absurd rfl (h [] (by simp))
      | cons a r => simp [upperFirst]

theorem derivedName_length (L : Lib) (filename : Str) :
    (derivedName L filename).length = ((base filename).filter (isLetterOrDigit L)).length := by
  rw [derivedName, upperFirst_flatten_length, maximalRuns_flatten]

theorem mem_derivedName (L : Lib) (filename : Str) (c : Char)
    (h : c ∈ derivedName L filename) :
    ∃ d ∈ base filename, isLetterOrDigit L d = true ∧ (c = d ∨ c = L.toUpper d) := by
  simp only [derivedName, List.mem_flatten, List.mem_map] at h
  obtain ⟨q, ⟨p, hp, rfl⟩, hc⟩ := h
  obtain ⟨d, hd, hcd⟩ := mem_upperFirst L p c hc
  have hmem : d ∈ (maximalRuns L (base filename)).flatten :=
    List.mem_flatten.2 ⟨p, hp, hd⟩
  rw [maximalRuns_flatten, List.mem_filter] at hmem
  exact ⟨d, hmem.1, hmem.2, hcd⟩

theorem derivedName_head (L : Lib) (filename : Str) :
    (derivedName L filename).head? =
      ((base filename).filter (isLetterOrDigit L)).head?.map L.toUpper := by
  have hne : ∀ p ∈ maximalRuns L (base filename), p ≠ [] := fieldsOf_nonempty _ _
  rw [derivedName, upperFirst_flatten_head L _ hne, maximalRuns_flatten]

theorem derivedName_ne_nil_iff (L : Lib) (filename : Str) :
    derivedName L filename ≠ [] ↔ ∃ d ∈ base filename, isLetterOrDigit L d = true := by
  have hlen := derivedName_length L filename
  constructor
  · intro h
    have hpos : 0 < ((base filename).filter (isLetterOrDigit L)).length := by
      rw [← hlen]
      exact List.length_pos.2 h
    obtain ⟨d, hd⟩ := List.exists_mem_of_length_pos hpos
    rw [List.mem_filter] at hd
    exact ⟨d, hd.1, hd.2⟩
  · rintro ⟨d, hd, hld⟩ h
    have hmem : d ∈ (base filename).filter (isLetterOrDigit L) :=
      List.mem_filter.2 ⟨hd, hld⟩
    rw [h] at hlen
    have hnil := List.eq_nil_of_length_eq_zero hlen.symm
    rw [hnil] at hmem
    simp at hmem

/-! ## Upper-casing on ASCII -/

set_option maxRecDepth 100000 in
theorem ascii_upper_closed_fin : ∀ n : Fin 128,
    ((Char.ofNat n.val).isAlpha || (Char.ofNat n.val).isDigit) = true →
    ((Char.ofNat n.val).toUpper.isAlpha || (Char.ofNat n.val).toUpper.isDigit) = true ∧
      (Char.ofNat n.val).toUpper.toNat < 128 := by
  decide

theorem ascii_upper_closed (c : Char) (hc : c.toNat < 128)
    (h : (c.isAlpha || c.isDigit) = true) :
    (c.toUpper.isAlpha || c.toUpper.isDigit) = true ∧ c.toUpper.toNat < 128 := by
  have h1 := ascii_upper_closed_fin ⟨c.toNat, hc⟩
  simp only [Char.ofNat_toNat] at h1
  exact h1 h

theorem asciiFaithful_upper (L : Lib) (hL : AsciiFaithful L) (d : Char) (hd : d.toNat < 128)
    (h : isLetterOrDigit L d = true) : isLetterOrDigit L (L.toUpper d) = true := by
  obtain ⟨h1, h2, h3⟩ := hL d hd
  simp only [isLetterOrDigit, h1, h2] at h
  obtain ⟨h4, h5⟩ := ascii_upper_closed d hd h
  obtain ⟨g1, g2, _⟩ := hL d.toUpper h5
  simp only [isLetterOrDigit, h3, g1, g2]
  exact h4

/-- C12 (amended). For every input file path, every character of the variable
name derived from the file name is a letter or digit of the base name or the
upper-case form of one, so all its characters are letters or digits when
upper-casing takes the letters and digits of the base name to letters or
digits, as it does for an ASCII base name with Unicode tables that agree with
the ASCII ones on ASCII; the name is non-empty exactly when the base name holds
a letter or a digit, and its first character is the upper-case form of the
first letter or digit of the base name. -/
theorem C12_derived_name_shape (L : Lib) (filename : Str) :
    varname L [] filename = .ok (derivedName L filename) ∧
      (∀ c ∈ derivedName L filename,
        ∃ d ∈ base filename, isLetterOrDigit L d = true ∧ (c = d ∨ c = L.toUpper d)) ∧
      ((∀ d ∈ base filename, isLetterOrDigit L d = true →
          isLetterOrDigit L (L.toUpper d) = true) →
        ∀ c ∈ derivedName L filename, isLetterOrDigit L c = true) ∧
      (AsciiFaithful L → (∀ d ∈ base filename, d.toNat < 128) →
        ∀ c ∈ derivedName L filename, isLetterOrDigit L c = true) ∧
      (derivedName L filename ≠ [] ↔ ∃ d ∈ base filename, isLetterOrDigit L d = true) ∧
      (derivedName L filename).head? =
        ((base filename).filter (isLetterOrDigit L)).head?.map L.toUpper := by
  have hmain : (∀ d ∈ base filename, isLetterOrDigit L d = true →
      isLetterOrDigit L (L.toUpper d) = true) →
      ∀ c ∈ derivedName L filename, isLetterOrDigit L c = true := by
    intro hup c hc
    obtain ⟨d, hd, hld, h | h⟩ := mem_derivedName L filename c hc
    · rw [h]
      exact hld
    · rw [h]
      exact hup d hd hld
  exact ⟨varname_derived L filename, mem_derivedName L filename, hmain,
    fun hL hascii => hmain (fun d hd h => asciiFaithful_upper L hL d (hascii d hd) h),
    derivedName_ne_nil_iff L filename, derivedName_head L filename⟩

/-- C12, witness: for `my-file.bin` upper-casing keeps letters and digits, and
all characters of the derived name are letters or digits. -/
theorem C12_derived_name_shape_witness :
    (∀ d ∈ base "my-file.bin".toList, isLetterOrDigit asciiLib d = true →
        isLetterOrDigit asciiLib (asciiLib.toUpper d) = true) ∧
      ∀ c ∈ derivedName asciiLib "my-file.bin".toList, isLetterOrDigit asciiLib c = true :=
  ⟨by decide, (C12_derived_name_shape asciiLib "my-file.bin".toList).2.2.1 (by decide)⟩

/-- C12, counterexample: the name derived from `123abc.DAT` is `123abcDAT`,
whose first character is the digit `1`, not a letter; the name derived from
`---` is empty, and the declaration then starts with `var  = [...]byte`. -/
theorem C12_counterexample :
    derivedName asciiLib "123abc.DAT".toList = "123abcDAT".toList ∧
      (derivedName asciiLib "123abc.DAT".toList).head? = some '1' ∧
      asciiLib.isLetter '1' = false ∧
      derivedName asciiLib "---".toList = [] ∧
      emitted asciiLib [] "---".toList [0, 255, 16] =
        .ok "var  = [...]byte\x7b\n\t0x00, 0xff, 0x10,\n\x7d\n".toList := by
  decide

/-- C14. For every file name, every piece produced by splitting its base name
on the characters that are neither letters nor digits is non-empty, so taking
the first character of a piece never fails: each step of the loop over the
pieces succeeds, name derivation returns a name, and `writeData` never ends
in a run-time panic. A piece of exactly one character contributes exactly the
upper-case form of that character. -/
theorem C14_pieces_nonempty {σ : Type} (L : Lib) (filename : Str) (w : Writer σ) (s : σ) :
    (∀ p ∈ fieldsFunc (base filename) (isSeparator L), p ≠ []) ∧
      (∀ p ∈ fieldsFunc (base filename) (isSeparator L), ∀ v : Str,
        ∃ c rest, p = c :: rest ∧ addPiece L v p = .ok (v ++ (L.toUpper c :: rest))) ∧
      (∀ name : Str, ∃ v, varname L name filename = .ok v) ∧
      (∀ (c : Char) (v : Str), addPiece L v [c] = .ok (v ++ [L.toUpper c])) ∧
      (∀ (name : Str) (data : List Byte),
        abortOf (writeData L name filename data w s) ≠ some Abort.panic) := by
  have hne : ∀ p ∈ fieldsFunc (base filename) (isSeparator L), p ≠ [] := by
    rw [fieldsFunc_eq]
    exact fieldsOf_nonempty _ _
  refine ⟨hne, fun p hp v => ?_, fun name => varname_total L name filename, fun c v => rfl,
    fun name data => ?_⟩
  · cases p with
    | nil => exact absurd rfl (hne [] hp)
    | cons c rest => exact ⟨c, rest, rfl, rfl⟩
  · rw [writeData_eq_runWrites L name filename data w s _ (varname_nameUsed L name filename)]
    rcases runWrites_abort w (dataWrites (nameUsed L name filename) data) s with h | h
    · rw [h]
      simp
    · rw [h]
      simp

/-- C15. For every input path, the length of the variable name derived from the
file name equals the number of letter/digit characters in the base name; every
character of the name is a letter or digit of the base name or the upper-case
form of one; and the name contains only letters and digits, no separator
character, given that upper-casing takes the letters and digits of the base
name to letters or digits (a property of the Unicode tables, which holds for an
ASCII base name with tables that agree with the ASCII ones on ASCII). -/
theorem C15_name_characters (L : Lib) (filename : Str) :
    varname L [] filename = .ok (derivedName L filename) ∧
      (derivedName L filename).length = (base filename).countP (isLetterOrDigit L) ∧
      (∀ c ∈ derivedName L filename,
        ∃ d ∈ base filename, isLetterOrDigit L d = true ∧ (c = d ∨ c = L.toUpper d)) ∧
      ((∀ d ∈ base filename, isLetterOrDigit L d = true →
          isLetterOrDigit L (L.toUpper d) = true) →
        ∀ c ∈ derivedName L filename,
          isLetterOrDigit L c = true ∧ isSeparator L c = false) ∧
      (AsciiFaithful L → (∀ d ∈ base filename, d.toNat < 128) →
        ∀ c ∈ derivedName L filename,
          isLetterOrDigit L c = true ∧ isSeparator L c = false) := by
  have hmain : (∀ d ∈ base filename, isLetterOrDigit L d = true →
      isLetterOrDigit L (L.toUpper d) = true) →
      ∀ c ∈ derivedName L filename,
        isLetterOrDigit L c = true ∧ isSeparator L c = false := by
    intro hup c hc
    obtain ⟨d, hd, hld, h | h⟩ := mem_derivedName L filename c hc
    · rw [h, isSeparator_eq]
      simp [hld]
    · rw [h, isSeparator_eq]
      simp [hup d hd hld]
  refine ⟨varname_derived L filename, ?_, mem_derivedName L filename, hmain,
    fun hL hascii => hmain (fun d hd h => asciiFaithful_upper L hL d (hascii d hd) h)⟩
  rw [derivedName_length, List.countP_eq_length_filter]

/-- C15, witness: the name derived from `my-file.bin` has the nine letters of
the base name and no other character. -/
theorem C15_name_characters_witness :
    (∀ d ∈ base "my-file.bin".toList, isLetterOrDigit asciiLib d = true →
        isLetterOrDigit asciiLib (asciiLib.toUpper d) = true) ∧
      (derivedName asciiLib "my-file.bin".toList).length = 9 ∧
      ∀ c ∈ derivedName asciiLib "my-file.bin".toList,
        isLetterOrDigit asciiLib c = true ∧ isSeparator asciiLib c = false :=
  ⟨by decide, by decide,
    (C15_name_characters asciiLib "my-file.bin".toList).2.2.2.1 (by decide)⟩

/-- C16. For the empty byte sequence and every variable name `v`, `writeData`
emits no literal, no space and no extra line break: it issues two writes, the
header and the closing line, and its output is exactly `var v = [...]byte`, an
opening brace, a line break, a tab, a line break, a closing brace and a line
break. The last-byte index is -1, which no loop index equals, and the loop
returns at once. -/
theorem C16_empty_input {σ : Type} (L : Lib) (name filename : Str) (w : Writer σ) (s : σ) :
    emitted L name filename [] =
        .ok ("var ".toList ++ nameUsed L name filename ++ " = [...]byte\x7b\n\t\n\x7d\n".toList) ∧
      (∀ (c : Char) (v : Str), emitted L (c :: v) filename [] =
        .ok ("var ".toList ++ (c :: v) ++ " = [...]byte\x7b\n\t\n\x7d\n".toList)) ∧
      writeData L name filename [] w s =
        runWrites w ["var ".toList ++ nameUsed L name filename ++ " = [...]byte\x7b\n\t".toList,
          "\n\x7d\n".toList] s ∧
      writeLoop w ((([] : List Byte).length : Int) - 1) [] 0 8 s = .ok s ∧
      (([] : List Byte).length : Int) - 1 = -1 ∧
      ∀ i : Nat, (i : Int) ≠ (([] : List Byte).length : Int) - 1 := by
  refine ⟨?_, fun c v => ?_, ?_, rfl, rfl, fun i => ?_⟩
  · rw [emitted_eq L name filename [] _ (varname_nameUsed L name filename)]
    simp [header, body, loopWrites]
  · rw [emitted_eq L (c :: v) filename [] _ (varname_explicit L (c :: v) filename (by simp))]
    simp [header, body, loopWrites]
  · rw [writeData_eq_runWrites L name filename [] w s _ (varname_nameUsed L name filename)]
    rfl
  · simp only [List.length_nil, Nat.cast_zero]
    omega

/-! ## The flag variables during a run -/

theorem base_ne_nil (path : Str) : base path ≠ [] := by
  unfold base
  split
  · decide
  · simp only []
    split
    · decide
    · assumption

theorem writeOutput_tail_flags (sys : Sys) (k : Nat) (st3 : State) (ts : List Str) :
    flagsOf (match runWrites (fileWriter sys k st3.flags.out) ts (st3, 0) with
      | .error (a, s, _) => .error (a, s)
      | .ok (st5, _) =>
        checkOutputFailure (st5.log (Event.flush st5.flags.out (!sys.flushErr k)),
          sys.flushErr k)) = st3.flags := by
  obtain ⟨es, _, h2⟩ := runWrites_fileWriter_trace sys k st3.flags.out ts st3 0
  cases hr : runWrites (fileWriter sys k st3.flags.out) ts (st3, 0) with
  | error e =>
    obtain ⟨a, s, j⟩ := e
    rw [hr] at h2
    simpa [flagsOf, endState] using h2
  | ok v =>
    obtain ⟨st5, j⟩ := v
    rw [hr] at h2
    simp only [endState] at h2
    by_cases hf : sys.flushErr k = true
    · simp [checkOutputFailure, hf, flagsOf, State.log, h2]
    · have hf' : sys.flushErr k = false := by simpa using hf
      simp [checkOutputFailure, hf', flagsOf, State.log, h2]

theorem writeOutput_flags (L : Lib) (sys : Sys) (k : Nat) (filename : Str)
    (data : List Byte) (st : State) :
    (flagsOf (writeOutput L sys k filename data st)).name = st.flags.name ∧
      (flagsOf (writeOutput L sys k filename data st)).out = outPath st.flags filename ∧
      (st.flags.pkg ≠ [] →
        (flagsOf (writeOutput L sys k filename data st)).pkg = st.flags.pkg) := by
  unfold writeOutput
  simp only [writeOutput_writes]
  generalize hst1 : (if st.flags.out = [] then
      ({ st with flags := { st.flags with out := filename ++ ".go".toList } } : State)
    else st) = st1
  have hn1 : st1.flags.name = st.flags.name := by
    rw [← hst1]
    split <;> rfl
  have ho1 : st1.flags.out = outPath st.flags filename := by
    rw [← hst1, outPath]
    split <;> rfl
  have hp1 : st1.flags.pkg = st.flags.pkg := by
    rw [← hst1]
    split <;> rfl
  rw [← hn1, ← ho1, ← hp1]
  by_cases hc : sys.create k st1.flags.out = true
  · simp only [hc, checkOutputFailure, Bool.not_true, Bool.false_eq_true, if_false]
    have hlog : (st1.log (Event.create st1.flags.out true)).flags = st1.flags := rfl
    by_cases hp : st1.flags.pkg = []
    · rw [hlog, if_pos hp]
      cases ha : sys.abs k st1.flags.out with
      | none => exact ⟨rfl, rfl, fun _ => rfl⟩
      | some p =>
        simp only []
        have h := writeOutput_tail_flags sys k
          { flags := { name := st1.flags.name, out := st1.flags.out, pkg := base (L.dir p) },
            trace := (st1.log (Event.create st1.flags.out true)).trace }
          (("package ".toList ++ base (L.dir p) ++ "\n\n".toList) ::
            dataWrites (nameUsed L st1.flags.name filename) data)
        simp only [checkOutputFailure] at h
        rw [h]
        exact ⟨rfl, rfl, fun h => absurd hp h⟩
    · rw [hlog, if_neg hp]
      have h := writeOutput_tail_flags sys k (st1.log (Event.create st1.flags.out true))
        (("package ".toList ++ st1.flags.pkg ++ "\n\n".toList) ::
          dataWrites (nameUsed L st1.flags.name filename) data)
      simp only [checkOutputFailure, hlog] at h
      simp only [hlog]
      rw [h]
      exact ⟨rfl, rfl, fun _ => rfl⟩
  · have hc' : sys.create k st1.flags.out = false := by simpa using hc
    simp only [hc', checkOutputFailure, Bool.not_false, if_true]
    exact ⟨rfl, rfl, fun _ => rfl⟩

theorem flags_eq (a b : Flags) (h1 : a.name = b.name) (h2 : a.out = b.out)
    (h3 : a.pkg = b.pkg) : a = b := by
  cases a
  cases b
  simp only [Flags.mk.injEq]
  exact ⟨h1, h2, h3⟩

theorem outPath_ne_nil (flags : Flags) (filename : Str) : outPath flags filename ≠ [] := by
  unfold outPath
  split
  · simp
  · assumption

theorem pkgUsed_ne_nil (L : Lib) (sys : Sys) (k : Nat) (flags : Flags) (filename : Str) :
    pkgUsed L sys k flags filename ≠ [] := by
  unfold pkgUsed
  split
  · exact base_ne_nil _
  · assumption

theorem mainLoop_flags (L : Lib) (sys : Sys) :
    ∀ (args : List Str) (k : Nat) (st : State),
      (flagsOf (mainLoop L sys args k st)).name = st.flags.name ∧
      (st.flags.out ≠ [] → (flagsOf (mainLoop L sys args k st)).out = st.flags.out) ∧
      (st.flags.pkg ≠ [] → (flagsOf (mainLoop L sys args k st)).pkg = st.flags.pkg)
  | [], k, st => ⟨rfl, fun _ => rfl, fun _ => rfl⟩
  | f :: rest, k, st => by
      simp only [mainLoop, readInput]
      cases hr : sys.readFile k f with
      | none => exact ⟨rfl, fun _ => rfl, fun _ => rfl⟩
      | some data =>
        simp only []
        obtain ⟨h1, h2, h3⟩ := writeOutput_flags L sys k f data (st.log (Event.read f true))
        have hlog : (st.log (Event.read f true)).flags = st.flags := rfl
        rw [hlog] at h1 h2 h3
        cases hw : writeOutput L sys k f data (st.log (Event.read f true)) with
        | error e =>
          obtain ⟨a, s⟩ := e
          rw [hw] at h1 h2 h3
          simp only [flagsOf] at h1 h2 h3 ⊢
          refine ⟨h1, fun ho => ?_, h3⟩
          rw [h2, outPath, if_neg ho]
        | ok st2 =>
          rw [hw] at h1 h2 h3
          simp only [flagsOf] at h1 h2 h3
          obtain ⟨g1, g2, g3⟩ := mainLoop_flags L sys rest (k + 1) st2
          simp only []
          refine ⟨by rw [g1, h1], fun ho => ?_, fun hp => ?_⟩
          · have e : st2.flags.out = st.flags.out := by rw [h2, outPath, if_neg ho]
            rw [g2 (by rw [e]; exact ho), e]
          · have e : st2.flags.pkg = st.flags.pkg := h3 hp
            rw [g3 (by rw [e]; exact hp), e]

theorem mainLoop_steady (L : Lib) (sys : Sys) :
    ∀ (args : List Str) (k : Nat) (st : State),
      st.flags.out ≠ [] → st.flags.pkg ≠ [] →
      (∀ i f, args[i]? = some f → (sys.readFile (k + i) f).isSome = true) →
      (∀ i, i < args.length → OutputOk sys (k + i)) →
      mainLoop L sys args k st = .ok ⟨st.flags, st.trace ++ steadyEvents L sys st.flags args k⟩
  | [], k, st, _, _, _, _ => by simp [mainLoop, steadyEvents]
  | f :: rest, k, st, hout, hpkg, hr, ho => by
      have hr0 := hr 0 f (by simp)
      obtain ⟨hc, ha, hw, hf⟩ := ho 0 (by simp)
      simp only [Nat.add_zero] at hr0 hc ha hw hf
      obtain ⟨data, hdata⟩ := Option.isSome_iff_exists.1 hr0
      have hwo := writeOutput_ok L sys k f data (st.log (Event.read f true)) (hc _)
        (fun _ => ha _) hw hf
      have hlog : (st.log (Event.read f true)).flags = st.flags := rfl
      have e1 : outPath st.flags f = st.flags.out := by rw [outPath, if_neg hout]
      have e2 : pkgUsed L sys k st.flags f = st.flags.pkg := by rw [pkgUsed, if_neg hpkg]
      rw [hlog, e1, e2] at hwo
      have ih := mainLoop_steady L sys rest (k + 1)
        ⟨⟨st.flags.name, st.flags.out, st.flags.pkg⟩,
          (st.log (Event.read f true)).trace ++
            fileEvents st.flags.out st.flags.pkg (nameUsed L st.flags.name f) data⟩
        hout hpkg
        (fun i g hg => by
          have := hr (i + 1) g (by simpa using hg)
          rwa [show k + (i + 1) = k + 1 + i by omega] at this)
        (fun i hi => by
          have := ho (i + 1) (by simpa using hi)
          rwa [show k + (i + 1) = k + 1 + i by omega] at this)
      simp only [mainLoop, readInput, hdata]
      rw [hwo]
      simp only []
      rw [ih]
      simp [steadyEvents, hdata, State.log]

theorem mainLoop_shared (L : Lib) (sys : Sys) (f0 : Str) (rest : List Str) (k : Nat)
    (st : State)
    (hr : ∀ i f, (f0 :: rest)[i]? = some f → (sys.readFile (k + i) f).isSome = true)
    (ho : ∀ i, i < (f0 :: rest).length → OutputOk sys (k + i)) :
    mainLoop L sys (f0 :: rest) k st =
      .ok ⟨⟨st.flags.name, outPath st.flags f0, pkgUsed L sys k st.flags f0⟩,
        st.trace ++ steadyEvents L sys
          ⟨st.flags.name, outPath st.flags f0, pkgUsed L sys k st.flags f0⟩ (f0 :: rest) k⟩ := by
  have hr0 := hr 0 f0 (by simp)
  obtain ⟨hc, ha, hw, hf⟩ := ho 0 (by simp)
  simp only [Nat.add_zero] at hr0 hc ha hw hf
  obtain ⟨data, hdata⟩ := Option.isSome_iff_exists.1 hr0
  have hwo := writeOutput_ok L sys k f0 data (st.log (Event.read f0 true)) (hc _)
    (fun _ => ha _) hw hf
  have hlog : (st.log (Event.read f0 true)).flags = st.flags := rfl
  rw [hlog] at hwo
  have ih := mainLoop_steady L sys rest (k + 1)
    ⟨⟨st.flags.name, outPath st.flags f0, pkgUsed L sys k st.flags f0⟩,
      (st.log (Event.read f0 true)).trace ++
        fileEvents (outPath st.flags f0) (pkgUsed L sys k st.flags f0)
          (nameUsed L st.flags.name f0) data⟩
    (outPath_ne_nil _ _) (pkgUsed_ne_nil _ _ _ _ _)
    (fun i g hg => by
      have := hr (i + 1) g (by simpa using hg)
      rwa [show k + (i + 1) = k + 1 + i by omega] at this)
    (fun i hi => by
      have := ho (i + 1) (by simpa using hi)
      rwa [show k + (i + 1) = k + 1 + i by omega] at this)
  simp only [mainLoop, readInput, hdata]
  rw [hwo]
  simp only []
  rw [ih]
  simp [steadyEvents, hdata, State.log]

/-- C13. Shared option state: without `-out` and `-pkg`, processing the first
input file sets the shared `out` value to that file's path followed by `.go` and
the shared `pkg` value to the base name of the directory of the absolute output
path; processing a file when both values are set leaves both unchanged,
whatever the outcome; so in a run in which nothing fails every file is written
to the output path and with the package name of the first one. An explicitly
supplied `-out` or `-pkg` is never changed by processing any file. -/
theorem C13_shared_flags (L : Lib) (sys : Sys) (f0 : Str) (rest : List Str) (k : Nat)
    (st : State) (data : List Byte) :
    (st.flags.out = [] → st.flags.pkg = [] →
        sys.create k (f0 ++ ".go".toList) = true →
        ∀ p, sys.abs k (f0 ++ ".go".toList) = some p →
        (∀ j, sys.writeErr k j = false) → sys.flushErr k = false →
        ∃ st1, writeOutput L sys k f0 data st = .ok st1 ∧
          st1.flags.out = f0 ++ ".go".toList ∧ st1.flags.pkg = base (L.dir p) ∧
          st1.flags.out ≠ [] ∧ st1.flags.pkg ≠ []) ∧
      (st.flags.out ≠ [] → st.flags.pkg ≠ [] →
        flagsOf (writeOutput L sys k f0 data st) = st.flags) ∧
      ((∀ i f, (f0 :: rest)[i]? = some f → (sys.readFile (k + i) f).isSome = true) →
        (∀ i, i < (f0 :: rest).length → OutputOk sys (k + i)) →
        mainLoop L sys (f0 :: rest) k st =
          .ok ⟨⟨st.flags.name, outPath st.flags f0, pkgUsed L sys k st.flags f0⟩,
            st.trace ++ steadyEvents L sys
              ⟨st.flags.name, outPath st.flags f0, pkgUsed L sys k st.flags f0⟩
              (f0 :: rest) k⟩) ∧
      (∀ args : List Str, st.flags.out ≠ [] →
        (flagsOf (mainLoop L sys args k st)).out = st.flags.out) ∧
      (∀ args : List Str, st.flags.pkg ≠ [] →
        (flagsOf (mainLoop L sys args k st)).pkg = st.flags.pkg) := by
  refine ⟨fun hout hpkg hc p ha hw hf => ?_, fun hout hpkg => ?_,
    mainLoop_shared L sys f0 rest k st,
    fun args h => (mainLoop_flags L sys args k st).2.1 h,
    fun args h => (mainLoop_flags L sys args k st).2.2 h⟩
  · have e1 : outPath st.flags f0 = f0 ++ ".go".toList := by rw [outPath, if_pos hout]
    have e2 : pkgUsed L sys k st.flags f0 = base (L.dir p) := by
      rw [pkgUsed, if_pos hpkg, e1, ha]
      rfl
    have hwo := writeOutput_ok L sys k f0 data st (by rw [e1]; exact hc)
      (fun _ => by rw [e1, ha]; simp) hw hf
    rw [e1, e2] at hwo
    exact ⟨_, hwo, rfl, rfl, by simp, base_ne_nil _⟩
  · obtain ⟨h1, h2, h3⟩ := writeOutput_flags L sys k f0 data st
    refine flags_eq _ _ h1 ?_ (h3 hpkg)
    rw [h2, outPath, if_neg hout]

/-- C13, witness: with the inputs `a.bin` and `b.bin` and no flag, both files are
written to `a.bin.go` with the package name `proj`. -/
theorem C13_shared_flags_witness :
    (∀ i, i < ["a.bin".toList, "b.bin".toList].length →
        OutputOk (sysWith [("a.bin".toList, [0, 255, 16]), ("b.bin".toList, [1, 2])]) (0 + i)) ∧
      mainLoop asciiLib (sysWith [("a.bin".toList, [0, 255, 16]), ("b.bin".toList, [1, 2])])
          ["a.bin".toList, "b.bin".toList] 0 ⟨noFlags, []⟩ =
        .ok ⟨⟨[], "a.bin.go".toList, "proj".toList⟩,
          steadyEvents asciiLib
            (sysWith [("a.bin".toList, [0, 255, 16]), ("b.bin".toList, [1, 2])])
            ⟨[], "a.bin.go".toList, "proj".toList⟩ ["a.bin".toList, "b.bin".toList] 0⟩ :=
  ⟨fun i _ => ⟨fun _ => rfl, fun _ => by simp [sysWith], fun _ => rfl, rfl⟩,
    (C13_shared_flags asciiLib
      (sysWith [("a.bin".toList, [0, 255, 16]), ("b.bin".toList, [1, 2])])
      "a.bin".toList ["b.bin".toList] 0 ⟨noFlags, []⟩ []).2.2.1
      (fun i f h => by
        have hi : i = 0 ∨ i = 1 := by
          have := (List.getElem?_eq_some.1 h).1
          simp at this
          omega
        rcases hi with hi | hi
        · subst hi
          have : f = "a.bin".toList := by simpa using h.symm
          subst this
          rfl
        · subst hi
          have : f = "b.bin".toList := by simpa using h.symm
          subst this
          rfl)
      (fun i _ => ⟨fun _ => rfl, fun _ => by simp [sysWith], fun _ => rfl, rfl⟩)⟩

end Bin2go
